import Mathlib

/-!
Verification of the Edmonton_GPS server core (`digraph.py`, `dijkstra.py`):
a directed-graph structure backed by two adjacency dictionaries, a
breadth-first shortest path, Dijkstra-style least-cost path, walk
compression and a random graph generator.

Python dictionaries are modelled as association lists with unique keys and
insertion-order semantics (CPython dicts iterate in insertion order, and
`min` over `dict.items()` returns the first minimal item).  Python sets
stored as dictionary values are modelled as duplicate-free lists; set
iteration order is unspecified in Python, so the list order is one
determinization of it.  A failed dictionary lookup (Python `KeyError`) is
modelled by `Option`/`Except`: `none` from `alookup` is a `KeyError`.
Loops whose termination is a semantic property of the data are given
explicit fuel; functions return `none` when the fuel is exhausted, and the
theorems show the chosen fuel is always sufficient.
-/

namespace EdmontonGPS

variable {V : Type} [DecidableEq V]

/-! ## Association lists (Python `dict`) and list-sets (Python `set`) -/

/-- Dictionary lookup: first binding of the key, `none` is a `KeyError`. -/
def alookup {β : Type} : List (V × β) → V → Option β
  | [], _ => none
  | (k, x) :: rest, v => if v = k then some x else alookup rest v

/-- The key list of a dictionary, in insertion order. -/
def akeys {β : Type} (m : List (V × β)) : List V := m.map Prod.fst

/-- `m[k] = b`: update the binding in place if the key exists, else append. -/
def assocSet {β : Type} : List (V × β) → V → β → List (V × β)
  | [], k, b => [(k, b)]
  | (k', b') :: rest, k, b =>
    if k = k' then (k, b) :: rest else (k', b') :: assocSet rest k b

/-- Apply `f` to the value stored at key `v`, in place (no-op if absent). -/
def aupdate {β : Type} (f : β → β) : List (V × β) → V → List (V × β)
  | [], _ => []
  | (k, x) :: rest, v => if v = k then (k, f x) :: rest else (k, x) :: aupdate f rest v

/-- `dict.pop(k)`: remove the first binding of the key. -/
def eraseKey {β : Type} : List (V × β) → V → List (V × β)
  | [], _ => []
  | (k, x) :: rest, v => if v = k then rest else (k, x) :: eraseKey rest v

/-- `set.add`: append the element unless already present. -/
def setAdd (s : List V) (x : V) : List V := if x ∈ s then s else s ++ [x]

theorem alookup_mem {β : Type} {m : List (V × β)} {v : V} {b : β}
    (h : alookup m v = some b) : (v, b) ∈ m := by
  induction m with
  | nil => simp [alookup] at h
  | cons p rest ih =>
    obtain ⟨k, x⟩ := p
    by_cases hv : v = k
    · subst hv
      simp [alookup] at h
      simp [h]
    · simp [alookup, hv] at h
      exact List.mem_cons_of_mem _ (ih h)

theorem alookup_isSome_iff {β : Type} {m : List (V × β)} {v : V} :
    (alookup m v).isSome = true ↔ v ∈ akeys m := by
  induction m with
  | nil => simp [alookup, akeys]
  | cons p rest ih =>
    obtain ⟨k, x⟩ := p
    by_cases hv : v = k
    · subst hv; simp [alookup, akeys]
    · simp [alookup, akeys, hv, ih]

theorem alookup_eq_none_iff {β : Type} {m : List (V × β)} {v : V} :
    alookup m v = none ↔ v ∉ akeys m := by
  rw [← alookup_isSome_iff]
  cases h : alookup m v <;> simp [h]

theorem alookup_append_right {β : Type} {m m' : List (V × β)} {v : V}
    (h : v ∉ akeys m) : alookup (m ++ m') v = alookup m' v := by
  induction m with
  | nil => simp
  | cons p rest ih =>
    obtain ⟨k, x⟩ := p
    simp [akeys] at h
    simp [alookup, h.1, ih (by simp [akeys, h.2])]

theorem alookup_append_left {β : Type} {m m' : List (V × β)} {v : V} {b : β}
    (h : alookup m v = some b) : alookup (m ++ m') v = some b := by
  induction m with
  | nil => simp [alookup] at h
  | cons p rest ih =>
    obtain ⟨k, x⟩ := p
    by_cases hv : v = k
    · subst hv; simp [alookup] at h ⊢; exact h
    · simp [alookup, hv] at h ⊢; exact ih h

theorem akeys_assocSet {β : Type} (m : List (V × β)) (k : V) (b : β) :
    akeys (assocSet m k b) = if k ∈ akeys m then akeys m else akeys m ++ [k] := by
  induction m with
  | nil => simp [assocSet, akeys]
  | cons p rest ih =>
    obtain ⟨k', b'⟩ := p
    by_cases hk : k = k'
    · subst hk; simp [assocSet, akeys]
    · simp only [assocSet, if_neg hk, akeys, List.map_cons] at ih ⊢
      rw [ih]
      by_cases hm : k ∈ akeys rest
      · simp [akeys] at hm
        simp [hm, hk]
      · simp [akeys] at hm
        simp [hm, hk]

theorem alookup_assocSet_eq {β : Type} (m : List (V × β)) (k : V) (b : β) :
    alookup (assocSet m k b) k = some b := by
  induction m with
  | nil => simp [assocSet, alookup]
  | cons p rest ih =>
    obtain ⟨k', b'⟩ := p
    by_cases hk : k = k'
    · subst hk; simp [assocSet, alookup]
    · simp [assocSet, hk, alookup, ih]

theorem alookup_assocSet_ne {β : Type} (m : List (V × β)) (k v : V) (b : β)
    (hv : v ≠ k) : alookup (assocSet m k b) v = alookup m v := by
  induction m with
  | nil => simp [assocSet, alookup, hv]
  | cons p rest ih =>
    obtain ⟨k', b'⟩ := p
    by_cases hk : k = k'
    · subst hk; simp [assocSet, alookup, hv]
    · by_cases hvk : v = k'
      · subst hvk; simp [assocSet, hk, alookup]
      · simp [assocSet, hk, alookup, hvk, ih]

theorem akeys_eraseKey_subset {β : Type} (m : List (V × β)) (v : V) :
    ∀ k ∈ akeys (eraseKey m v), k ∈ akeys m := by
  induction m with
  | nil => simp [eraseKey]
  | cons p rest ih =>
    obtain ⟨k', b'⟩ := p
    by_cases hv : v = k'
    · subst hv
      intro k hk
      simp only [eraseKey, if_pos rfl] at hk
      simp only [akeys, List.map_cons, List.mem_cons]
      exact Or.inr (by simpa [akeys] using hk)
    · intro k hk
      simp [eraseKey, hv, akeys] at hk
      rcases hk with h | h
      · simp [akeys, h]
      · have := ih k (by simpa [akeys] using h)
        simp [akeys] at this ⊢
        exact Or.inr this

theorem alookup_eraseKey_of_nodup {β : Type} (m : List (V × β)) (v : V)
    (hnd : (akeys m).Nodup) {k : V} (hk : k ≠ v) :
    alookup (eraseKey m v) k = alookup m k := by
  induction m with
  | nil => simp [eraseKey]
  | cons p rest ih =>
    obtain ⟨k', b'⟩ := p
    simp only [akeys, List.map_cons, List.nodup_cons] at hnd
    by_cases hv : v = k'
    · subst hv
      simp only [eraseKey, if_pos rfl]
      simp [alookup, hk]
    · by_cases hkk : k = k'
      · subst hkk; simp [eraseKey, hv, alookup]
      · simp [eraseKey, hv, alookup, hkk, ih (by simpa [akeys] using hnd.2)]

theorem akeys_eraseKey_nodup {β : Type} (m : List (V × β)) (v : V)
    (hnd : (akeys m).Nodup) : (akeys (eraseKey m v)).Nodup := by
  induction m with
  | nil => simp [eraseKey, akeys]
  | cons p rest ih =>
    obtain ⟨k', b'⟩ := p
    simp only [akeys, List.map_cons, List.nodup_cons] at hnd
    by_cases hv : v = k'
    · subst hv; simpa [eraseKey, akeys] using hnd.2
    · simp only [eraseKey, if_neg hv, akeys, List.map_cons, List.nodup_cons]
      refine ⟨fun hmem => hnd.1 (akeys_eraseKey_subset rest v k' hmem), ih hnd.2⟩

theorem setAdd_nodup {s : List V} (h : s.Nodup) (x : V) : (setAdd s x).Nodup := by
  unfold setAdd
  split
  · exact h
  · simpa [List.nodup_append] using ⟨h, by assumption⟩

theorem mem_setAdd {s : List V} {x y : V} : y ∈ setAdd s x ↔ y ∈ s ∨ y = x := by
  unfold setAdd
  split
  · rename_i hx
    constructor
    · exact Or.inl
    · rintro (h | rfl)
      · exact h
      · exact hx
  · simp

theorem setAdd_length_le (s : List V) (x : V) : (setAdd s x).length ≤ s.length + 1 := by
  unfold setAdd
  split <;> simp

/-! ## The `Digraph` class (`digraph.py`)

`_tosets` and `_fromsets` are the two adjacency dictionaries mapping a
vertex to the set of forward (resp. backward) neighbours. -/

structure Digraph (V : Type) where
  tosets : List (V × List V)
  fromsets : List (V × List V)

/-- `Digraph()`: the empty graph. -/
def Digraph.empty (V : Type) : Digraph V := ⟨[], []⟩

/-- `add_vertex(v)`: insert `v` with empty neighbour sets if absent
(presence is tested on `_tosets` only, as in the source). -/
def add_vertex (G : Digraph V) (v : V) : Digraph V :=
  if v ∈ akeys G.tosets then G
  else ⟨G.tosets ++ [(v, [])], G.fromsets ++ [(v, [])]⟩

/-- `add_edge(e)`: add both endpoints, then register the edge in both maps. -/
def add_edge (G : Digraph V) (e : V × V) : Digraph V :=
  let G1 := add_vertex (add_vertex G e.1) e.2
  ⟨aupdate (fun s => setAdd s e.2) G1.tosets e.1,
   aupdate (fun s => setAdd s e.1) G1.fromsets e.2⟩

/-- `vertices()`: the key set of `_tosets` (as a list, in insertion order). -/
def vertices (G : Digraph V) : List V := akeys G.tosets

/-- `edges()`: all ordered pairs derivable from `_tosets`. -/
def edges (G : Digraph V) : List (V × V) :=
  (G.tosets.map (fun p => p.2.map (fun w => (p.1, w)))).flatten

/-- `num_edges()`: the sum of the sizes of the forward neighbour sets. -/
def num_edges (G : Digraph V) : Nat := (G.tosets.map (fun p => p.2.length)).sum

/-- `num_vertices()`. -/
def num_vertices (G : Digraph V) : Nat := G.tosets.length

/-- `adj_to(v)`: forward neighbours of `v`; `none` is the `KeyError` raised
on a vertex that was never added. -/
def adj_to (G : Digraph V) (v : V) : Option (List V) := alookup G.tosets v

/-- `adj_from(v)`: backward neighbours of `v`. -/
def adj_from (G : Digraph V) (v : V) : Option (List V) := alookup G.fromsets v

/-- Build a graph from a list of edges, as `Digraph(edges)` does. -/
def ofEdges (es : List (V × V)) : Digraph V := es.foldl add_edge (Digraph.empty V)

/-- Well-formedness of the forward map, true of every graph the class
can construct: keys are distinct, neighbour sets are duplicate-free and
contain only registered vertices. -/
def WF (G : Digraph V) : Prop :=
  (akeys G.tosets).Nodup ∧
    ∀ p ∈ G.tosets, p.2.Nodup ∧ ∀ w ∈ p.2, w ∈ akeys G.tosets

instance (G : Digraph V) : Decidable (WF G) :=
  inferInstanceAs (Decidable ((akeys G.tosets).Nodup ∧
    ∀ p ∈ G.tosets, p.2.Nodup ∧ ∀ w ∈ p.2, w ∈ akeys G.tosets))

/-- `b` is a forward neighbour of `a` (a registered edge `(a, b)`). -/
def Edge (G : Digraph V) (a b : V) : Prop :=
  ∃ l, adj_to G a = some l ∧ b ∈ l

instance (G : Digraph V) (a b : V) : Decidable (Edge G a b) :=
  match h : adj_to G a with
  | none => isFalse (fun hE => by
      obtain ⟨l, hl, _⟩ := hE
      rw [h] at hl
      cases hl)
  | some l =>
    if hb : b ∈ l then isTrue ⟨l, h, hb⟩
    else isFalse (fun hE => by
      obtain ⟨l', hl', hb'⟩ := hE
      rw [h] at hl'
      cases hl'
      exact hb hb')

/-- Executable edge-chain check, used to decide `List.Chain' (Edge G)`. -/
def chainEdgeB (G : Digraph V) : List V → Bool
  | [] => true
  | [_] => true
  | a :: b :: r => decide (Edge G a b) && chainEdgeB G (b :: r)

theorem chain'_edge_iff (G : Digraph V) :
    ∀ p : List V, p.Chain' (Edge G) ↔ chainEdgeB G p = true := by
  intro p
  induction p with
  | nil => simp [chainEdgeB]
  | cons a rest ih =>
    cases rest with
    | nil => simp [chainEdgeB]
    | cons b r =>
      rw [List.chain'_cons, chainEdgeB, Bool.and_eq_true, decide_eq_true_eq, ih]

instance decidableChainEdge (G : Digraph V) (p : List V) :
    Decidable (p.Chain' (Edge G)) :=
  decidable_of_iff (chainEdgeB G p = true) (chain'_edge_iff G p).symm

theorem Edge.mem_edges {G : Digraph V} {a b : V} (h : Edge G a b) :
    (a, b) ∈ edges G := by
  obtain ⟨l, hl, hb⟩ := h
  have hmem : (a, l) ∈ G.tosets := alookup_mem hl
  simp only [edges, List.mem_flatten, List.mem_map]
  exact ⟨l.map (fun w => (a, w)), ⟨(a, l), hmem, rfl⟩, by simp [hb]⟩

theorem Edge.src_mem {G : Digraph V} {a b : V} (h : Edge G a b) :
    a ∈ vertices G := by
  obtain ⟨l, hl, _⟩ := h
  rw [adj_to] at hl
  have hsome : (alookup G.tosets a).isSome = true := by rw [hl]; rfl
  simpa [vertices] using alookup_isSome_iff.mp hsome

theorem Edge.dst_mem {G : Digraph V} (hWF : WF G) {a b : V} (h : Edge G a b) :
    b ∈ vertices G := by
  obtain ⟨l, hl, hb⟩ := h
  exact (hWF.2 (a, l) (alookup_mem hl)).2 b hb

theorem adj_to_of_mem_vertices {G : Digraph V} {v : V} (h : v ∈ vertices G) :
    ∃ l, adj_to G v = some l := by
  have := alookup_isSome_iff.mpr (by simpa [vertices] using h)
  cases hl : alookup G.tosets v
  · rw [hl] at this; simp at this
  · exact ⟨_, hl⟩

theorem adj_to_nodup {G : Digraph V} (hWF : WF G) {v : V} {l : List V}
    (h : adj_to G v = some l) : l.Nodup :=
  (hWF.2 (v, l) (alookup_mem h)).1

theorem adj_to_subset {G : Digraph V} (hWF : WF G) {v : V} {l : List V}
    (h : adj_to G v = some l) : ∀ w ∈ l, w ∈ vertices G :=
  (hWF.2 (v, l) (alookup_mem h)).2

/-! ## Walks and paths (as predicates)

A sequence is a walk of the graph when each consecutive pair is a
registered edge; `ValidFromTo G a b p` additionally fixes the endpoints.
Vertex repetitions are allowed, matching what `is_path` accepts. -/

def ValidFromTo (G : Digraph V) (a b : V) (p : List V) : Prop :=
  p.Chain' (Edge G) ∧ p.head? = some a ∧ p.getLast? = some b

instance (G : Digraph V) (a b : V) (p : List V) : Decidable (ValidFromTo G a b p) :=
  inferInstanceAs (Decidable (p.Chain' (Edge G) ∧ p.head? = some a ∧ p.getLast? = some b))

theorem ValidFromTo.ne_nil {G : Digraph V} {a b : V} {p : List V}
    (h : ValidFromTo G a b p) : p ≠ [] := by
  intro hnil; rw [hnil] at h; simp [ValidFromTo] at h

theorem ValidFromTo.single {G : Digraph V} {a : V} :
    ValidFromTo G a a [a] := by
  refine ⟨by simp, by simp, by simp⟩

/-- Every vertex of a walk whose head is a graph vertex is a graph vertex. -/
theorem walk_mem_vertices {G : Digraph V} (hWF : WF G) :
    ∀ p : List V, p.Chain' (Edge G) → (∀ x, p.head? = some x → x ∈ vertices G) →
      ∀ v ∈ p, v ∈ vertices G := by
  intro p
  induction p with
  | nil => simp
  | cons x rest ih =>
    intro hch hhead v hv
    rcases List.mem_cons.mp hv with rfl | hv
    · exact hhead v rfl
    · cases rest with
      | nil => simp at hv
      | cons y rest' =>
        have hch' := List.chain'_cons.mp hch
        refine ih hch'.2 (fun z hz => ?_) v hv
        simp only [List.head?_cons, Option.some.injEq] at hz
        exact hz ▸ hch'.1.dst_mem hWF

theorem ValidFromTo.mem_vertices {G : Digraph V} (hWF : WF G) {a b : V}
    {p : List V} (h : ValidFromTo G a b p) (ha : a ∈ vertices G) :
    ∀ v ∈ p, v ∈ vertices G := by
  refine walk_mem_vertices hWF p h.1 (fun x hx => ?_)
  rw [h.2.1] at hx
  simp only [Option.some.injEq] at hx
  exact hx ▸ ha

/-! ## `is_path` (`digraph.py`, lines 137-188)

The `while` loop over consecutive pairs is `is_path_rest`; the result is
`none` exactly when the Python code raises `KeyError` (an `adj_to` call on
a vertex that is not a dictionary key). -/

def is_path_rest (G : Digraph V) : List V → Option Bool
  | [] => some true
  | [_] => some true
  | a :: b :: rest =>
    match adj_to G a with
    | none => none
    | some s => if b ∈ s then is_path_rest G (b :: rest) else some false

def is_path (G : Digraph V) : List V → Option Bool
  | [] => some false
  | [v] => some (decide (v ∈ vertices G))
  | a :: b :: rest => is_path_rest G (a :: b :: rest)

theorem is_path_rest_eq_true_iff (G : Digraph V) :
    ∀ p : List V, is_path_rest G p = some true ↔ p.Chain' (Edge G) := by
  intro p
  induction p with
  | nil => simp [is_path_rest]
  | cons a rest ih =>
    cases rest with
    | nil => simp [is_path_rest]
    | cons b r =>
      rw [List.chain'_cons, ← ih]
      cases hs : adj_to G a with
      | none =>
        simp only [is_path_rest, hs]
        constructor
        · intro h; cases h
        · rintro ⟨⟨l, hl, _⟩, _⟩
          rw [hs] at hl; cases hl
      | some s =>
        by_cases hb : b ∈ s
        · simp only [is_path_rest, hs, if_pos hb]
          constructor
          · intro h; exact ⟨⟨s, hs, hb⟩, h⟩
          · exact fun h => h.2
        · simp only [is_path_rest, hs, if_neg hb]
          constructor
          · intro h; cases h
          · rintro ⟨⟨l, hl, hbl⟩, _⟩
            rw [hs] at hl
            cases hl
            exact absurd hbl hb

theorem is_path_eq_true_iff (G : Digraph V) (p : List V) :
    is_path G p = some true ↔
      p ≠ [] ∧ p.Chain' (Edge G) ∧ ∀ x, p.head? = some x → x ∈ vertices G := by
  cases p with
  | nil => simp [is_path]
  | cons a rest =>
    cases rest with
    | nil =>
      simp only [is_path, Option.some.injEq, decide_eq_true_eq]
      constructor
      · intro h
        exact ⟨by simp, by simp, fun x hx => by
          simp only [List.head?_cons, Option.some.injEq] at hx; exact hx ▸ h⟩
      · exact fun h => h.2.2 a rfl
    | cons b r =>
      rw [is_path, is_path_rest_eq_true_iff]
      constructor
      · intro h
        refine ⟨by simp, h, fun x hx => ?_⟩
        simp only [List.head?_cons, Option.some.injEq] at hx
        have := (List.chain'_cons.mp h).1
        exact hx ▸ this.src_mem
      · exact fun h => h.2.1

theorem is_path_eq_true_of_valid {G : Digraph V} {a b : V} {p : List V}
    (h : ValidFromTo G a b p) (ha : a ∈ vertices G) : is_path G p = some true := by
  rw [is_path_eq_true_iff]
  refine ⟨h.ne_nil, h.1, fun x hx => ?_⟩
  rw [h.2.1] at hx
  simp only [Option.some.injEq] at hx
  exact hx ▸ ha

theorem valid_of_is_path {G : Digraph V} {a b : V} {p : List V}
    (h : is_path G p = some true) (hh : p.head? = some a) (hl : p.getLast? = some b) :
    ValidFromTo G a b p ∧ a ∈ vertices G := by
  rw [is_path_eq_true_iff] at h
  exact ⟨⟨h.2.1, hh, hl⟩, h.2.2 a hh⟩

theorem is_path_rest_absent {G : Digraph V} (hWF : WF G) :
    ∀ (p : List V) (a : V), a ∈ vertices G → (∃ v ∈ a :: p, v ∉ vertices G) →
      is_path_rest G (a :: p) = some false := by
  intro p
  induction p with
  | nil =>
    intro a ha habs
    obtain ⟨v, hv, hnv⟩ := habs
    simp only [List.mem_singleton] at hv
    exact absurd (hv ▸ ha) hnv
  | cons b r ih =>
    intro a ha habs
    obtain ⟨s, hs⟩ := adj_to_of_mem_vertices ha
    by_cases hb : b ∈ s
    · have hbv : b ∈ vertices G := adj_to_subset hWF hs b hb
      have habs' : ∃ v ∈ b :: r, v ∉ vertices G := by
        obtain ⟨v, hv, hnv⟩ := habs
        rcases List.mem_cons.mp hv with rfl | hv
        · exact absurd ha hnv
        · exact ⟨v, hv, hnv⟩
      simp only [is_path_rest, hs, if_pos hb]
      exact ih b hbv habs'
    · simp [is_path_rest, hs, hb]

/-! ## Graph construction invariant (`add_vertex` / `add_edge`)

`GInv` is the invariant maintained by the two mutators: the two maps share
one duplicate-free key list, neighbour sets are duplicate-free sets of
registered vertices, and an edge is registered forward iff backward. -/

inductive Op (V : Type) where
  | addV (v : V)
  | addE (e : V × V)

def applyOp (G : Digraph V) : Op V → Digraph V
  | .addV v => add_vertex G v
  | .addE e => add_edge G e

def buildGraph (ops : List (Op V)) : Digraph V :=
  ops.foldl applyOp (Digraph.empty V)

def EdgeT (G : Digraph V) (v w : V) : Prop :=
  ∃ l, alookup G.tosets v = some l ∧ w ∈ l

def EdgeF (G : Digraph V) (w v : V) : Prop :=
  ∃ l, alookup G.fromsets w = some l ∧ v ∈ l

def GInv (G : Digraph V) : Prop :=
  akeys G.tosets = akeys G.fromsets ∧
  (akeys G.tosets).Nodup ∧
  (∀ p ∈ G.tosets, p.2.Nodup ∧ ∀ w ∈ p.2, w ∈ akeys G.tosets) ∧
  (∀ p ∈ G.fromsets, p.2.Nodup ∧ ∀ w ∈ p.2, w ∈ akeys G.tosets) ∧
  (∀ v w, EdgeT G v w ↔ EdgeF G w v)

theorem GInv_empty : GInv (Digraph.empty V) := by
  refine ⟨rfl, by simp [Digraph.empty, akeys], by simp [Digraph.empty],
    by simp [Digraph.empty], fun v w => ?_⟩
  simp [EdgeT, EdgeF, Digraph.empty, alookup]

theorem alookup_append_unit {β : Type} (m : List (V × List β)) (u v : V) (w : β) :
    (∃ l, alookup (m ++ [(v, ([] : List β))]) u = some l ∧ w ∈ l) ↔
      ∃ l, alookup m u = some l ∧ w ∈ l := by
  cases h : alookup m u with
  | some l =>
    rw [alookup_append_left h]
  | none =>
    rw [alookup_append_right (alookup_eq_none_iff.mp h)]
    by_cases hu : u = v
    · subst hu; simp [alookup]
    · simp [alookup, hu]

theorem akeys_aupdate {β : Type} (f : β → β) (m : List (V × β)) (v : V) :
    akeys (aupdate f m v) = akeys m := by
  induction m with
  | nil => simp [aupdate]
  | cons p rest ih =>
    obtain ⟨k, x⟩ := p
    by_cases hv : v = k
    · subst hv; simp [aupdate, akeys]
    · simp [aupdate, hv, akeys] at ih ⊢
      exact ih

theorem alookup_aupdate_self {β : Type} (f : β → β) (m : List (V × β)) (v : V) :
    alookup (aupdate f m v) v = Option.map f (alookup m v) := by
  induction m with
  | nil => simp [aupdate, alookup]
  | cons p rest ih =>
    obtain ⟨k, x⟩ := p
    by_cases hv : v = k
    · subst hv; simp [aupdate, alookup]
    · simp [aupdate, hv, alookup, ih]

theorem alookup_aupdate_ne {β : Type} (f : β → β) (m : List (V × β)) (v u : V)
    (h : u ≠ v) : alookup (aupdate f m v) u = alookup m u := by
  induction m with
  | nil => simp [aupdate]
  | cons p rest ih =>
    obtain ⟨k, x⟩ := p
    by_cases hv : v = k
    · subst hv; simp [aupdate, alookup, h]
    · by_cases hu : u = k
      · subst hu; simp [aupdate, hv, alookup]
      · simp [aupdate, hv, alookup, hu, ih]

theorem mem_aupdate {β : Type} {f : β → β} {m : List (V × β)} {v : V} {q : V × β}
    (hq : q ∈ aupdate f m v) : q ∈ m ∨ ∃ k b, (k, b) ∈ m ∧ q = (k, f b) := by
  induction m with
  | nil => simp [aupdate] at hq
  | cons p rest ih =>
    obtain ⟨k', x⟩ := p
    by_cases hv : v = k'
    · simp only [aupdate, if_pos hv] at hq
      rcases List.mem_cons.mp hq with rfl | hq
      · exact Or.inr ⟨k', x, by simp, rfl⟩
      · exact Or.inl (List.mem_cons_of_mem _ hq)
    · simp only [aupdate, if_neg hv] at hq
      rcases List.mem_cons.mp hq with rfl | hq
      · exact Or.inl (by simp)
      · rcases ih hq with h | ⟨k, b, hb, rfl⟩
        · exact Or.inl (List.mem_cons_of_mem _ h)
        · exact Or.inr ⟨k, b, List.mem_cons_of_mem _ hb, rfl⟩

theorem GInv_add_vertex (G : Digraph V) (v : V) (h : GInv G) :
    GInv (add_vertex G v) := by
  obtain ⟨hkeys, hnd, ht, hf, hsym⟩ := h
  unfold add_vertex
  by_cases hv : v ∈ akeys G.tosets
  · simpa [hv] using ⟨hkeys, hnd, ht, hf, hsym⟩
  · simp only [if_neg hv]
    refine ⟨?_, ?_, ?_, ?_, ?_⟩
    · simp only [akeys, List.map_append]
      rw [show (List.map Prod.fst G.tosets) = akeys G.tosets from rfl, hkeys]
      rfl
    · simp only [akeys, List.map_append, List.map_cons, List.map_nil]
      rw [List.nodup_append]
      exact ⟨hnd, by simp, by simpa [akeys] using hv⟩
    · intro p hp
      rcases List.mem_append.mp hp with hp | hp
      · obtain ⟨h1, h2⟩ := ht p hp
        exact ⟨h1, fun w hw => by simp [akeys]; exact Or.inl (by simpa [akeys] using h2 w hw)⟩
      · simp at hp
        subst hp
        simp
    · intro p hp
      rcases List.mem_append.mp hp with hp | hp
      · obtain ⟨h1, h2⟩ := hf p hp
        exact ⟨h1, fun w hw => by simp [akeys]; exact Or.inl (by simpa [akeys] using h2 w hw)⟩
      · simp at hp
        subst hp
        simp
    · intro a w
      show (∃ l, alookup (G.tosets ++ [(v, [])]) a = some l ∧ w ∈ l) ↔
        (∃ l, alookup (G.fromsets ++ [(v, [])]) w = some l ∧ a ∈ l)
      rw [alookup_append_unit, alookup_append_unit]
      exact hsym a w

theorem mem_akeys_add_vertex_self (G : Digraph V) (v : V) :
    v ∈ akeys (add_vertex G v).tosets := by
  unfold add_vertex
  split
  · assumption
  · simp [akeys]

theorem mem_akeys_add_vertex_mono (G : Digraph V) (v u : V)
    (h : u ∈ akeys G.tosets) : u ∈ akeys (add_vertex G v).tosets := by
  unfold add_vertex
  split
  · exact h
  · simp only [akeys, List.map_append, List.mem_append]
    exact Or.inl (by simpa [akeys] using h)

theorem GInv_add_edge (G : Digraph V) (e : V × V) (h : GInv G) :
    GInv (add_edge G e) := by
  obtain ⟨a, b⟩ := e
  set G1 := add_vertex (add_vertex G a) b with hG1def
  have hG1 : GInv G1 := GInv_add_vertex _ b (GInv_add_vertex G a h)
  obtain ⟨hkeys, hnd, ht, hf, hsym⟩ := hG1
  have ha : a ∈ akeys G1.tosets :=
    mem_akeys_add_vertex_mono _ b a (mem_akeys_add_vertex_self G a)
  have hb : b ∈ akeys G1.tosets := mem_akeys_add_vertex_self _ b
  obtain ⟨la, hla⟩ : ∃ la, alookup G1.tosets a = some la := by
    have := alookup_isSome_iff.mpr ha
    cases hx : alookup G1.tosets a
    · rw [hx] at this; cases this
    · exact ⟨_, rfl⟩
  obtain ⟨lb, hlb⟩ : ∃ lb, alookup G1.fromsets b = some lb := by
    have := alookup_isSome_iff.mpr (hkeys ▸ hb)
    cases hx : alookup G1.fromsets b
    · rw [hx] at this; cases this
    · exact ⟨_, rfl⟩
  show GInv ⟨aupdate (fun s => setAdd s b) G1.tosets a,
             aupdate (fun s => setAdd s a) G1.fromsets b⟩
  refine ⟨?_, ?_, ?_, ?_, ?_⟩
  · show akeys (aupdate _ G1.tosets a) = akeys (aupdate _ G1.fromsets b)
    rw [akeys_aupdate, akeys_aupdate]
    exact hkeys
  · show (akeys (aupdate _ G1.tosets a)).Nodup
    rw [akeys_aupdate]
    exact hnd
  · intro p hp
    rcases mem_aupdate hp with hp | ⟨k, l, hl, rfl⟩
    · obtain ⟨h1, h2⟩ := ht p hp
      exact ⟨h1, fun w hw => by rw [akeys_aupdate]; exact h2 w hw⟩
    · obtain ⟨h1, h2⟩ := ht (k, l) hl
      refine ⟨setAdd_nodup h1 b, fun w hw => ?_⟩
      rw [akeys_aupdate]
      rcases mem_setAdd.mp hw with hw | rfl
      · exact h2 w hw
      · exact hb
  · intro p hp
    rcases mem_aupdate hp with hp | ⟨k, l, hl, rfl⟩
    · obtain ⟨h1, h2⟩ := hf p hp
      exact ⟨h1, fun w hw => by rw [akeys_aupdate]; exact h2 w hw⟩
    · obtain ⟨h1, h2⟩ := hf (k, l) hl
      refine ⟨setAdd_nodup h1 a, fun w hw => ?_⟩
      rw [akeys_aupdate]
      rcases mem_setAdd.mp hw with hw | rfl
      · exact h2 w hw
      · exact ha
  · intro v w
    show (∃ l, alookup (aupdate (fun s => setAdd s b) G1.tosets a) v = some l ∧ w ∈ l) ↔
         (∃ l, alookup (aupdate (fun s => setAdd s a) G1.fromsets b) w = some l ∧ v ∈ l)
    have hmapT : alookup (aupdate (fun s => setAdd s b) G1.tosets a) a = some (setAdd la b) := by
      rw [alookup_aupdate_self, hla]
      rfl
    have hmapF : alookup (aupdate (fun s => setAdd s a) G1.fromsets b) b = some (setAdd lb a) := by
      rw [alookup_aupdate_self, hlb]
      rfl
    by_cases hva : v = a
    · subst hva
      rw [hmapT]
      by_cases hwb : w = b
      · subst hwb
        rw [hmapF]
        simp [mem_setAdd]
      · rw [alookup_aupdate_ne _ _ _ _ hwb]
        have : (∃ l, some (setAdd la b) = some l ∧ w ∈ l) ↔ (w ∈ la ∨ w = b) := by
          simp [mem_setAdd]
        rw [this]
        have h2 : EdgeF G1 w v ↔ (w ∈ la ∨ w = b) := by
          rw [← hsym v w]
          simp only [EdgeT, hla]
          constructor
          · rintro ⟨l, hl, hw⟩
            cases hl
            exact Or.inl hw
          · rintro (hw | rfl)
            · exact ⟨la, rfl, hw⟩
            · exact absurd rfl hwb
        exact h2.symm
    · rw [alookup_aupdate_ne _ _ _ _ hva]
      by_cases hwb : w = b
      · subst hwb
        rw [hmapF]
        have h1 : (∃ l, alookup G1.tosets v = some l ∧ w ∈ l) ↔ EdgeF G1 w v := hsym v w
        have h2 : EdgeF G1 w v ↔ v ∈ lb := by
          simp only [EdgeF, hlb]
          constructor
          · rintro ⟨l, hl, hv⟩; cases hl; exact hv
          · intro hv; exact ⟨lb, rfl, hv⟩
        rw [show (∃ l, alookup G1.tosets v = some l ∧ w ∈ l) ↔ v ∈ lb from h1.trans h2]
        simp [mem_setAdd, hva]
      · rw [alookup_aupdate_ne _ _ _ _ hwb]
        exact hsym v w

theorem GInv_buildGraph (ops : List (Op V)) : GInv (buildGraph ops) := by
  suffices h : ∀ G, GInv G → GInv (ops.foldl applyOp G) from h _ GInv_empty
  induction ops with
  | nil => exact fun G hG => hG
  | cons op rest ih =>
    intro G hG
    cases op with
    | addV v => exact ih _ (GInv_add_vertex G v hG)
    | addE e => exact ih _ (GInv_add_edge G e hG)

theorem GInv.toWF {G : Digraph V} (h : GInv G) : WF G := ⟨h.2.1, h.2.2.1⟩

theorem WF_buildGraph (ops : List (Op V)) : WF (buildGraph ops) :=
  (GInv_buildGraph ops).toWF

theorem WF_ofEdges (es : List (V × V)) : WF (ofEdges es) := by
  have : ofEdges es = buildGraph (es.map Op.addE) := by
    unfold ofEdges buildGraph
    rw [List.foldl_map]
    rfl
  rw [this]
  exact WF_buildGraph _

/-- C4 (amended): `is_path` returns `False` on the empty sequence and on any
sequence containing a vertex absent from the graph, except that a sequence of
length at least two whose first vertex is absent raises a lookup error
(`KeyError` from `adj_to`), regardless of where any other absent vertex sits. -/
theorem c4_is_path_absent_vertex (G : Digraph V) (hWF : WF G) :
    is_path G ([] : List V) = some false ∧
    ∀ p : List V, (∃ v ∈ p, v ∉ vertices G) →
      ((∀ a b r, p = a :: b :: r → a ∉ vertices G → is_path G p = none) ∧
       (∀ a b r, p = a :: b :: r → a ∈ vertices G → is_path G p = some false) ∧
       (∀ a, p = [a] → is_path G p = some false)) := by
  refine ⟨rfl, fun p habs => ⟨?_, ?_, ?_⟩⟩
  · rintro a b r rfl ha
    have hnone : adj_to G a = none := by
      rw [adj_to, alookup_eq_none_iff]
      simpa [vertices] using ha
    simp [is_path, is_path_rest, hnone]
  · rintro a b r rfl ha
    have := is_path_rest_absent hWF (b :: r) a ha habs
    simpa [is_path] using this
  · rintro a rfl
    obtain ⟨v, hv, hnv⟩ := habs
    simp only [List.mem_singleton] at hv
    subst hv
    simp [is_path, hnv]

/-- C4 counterexample: on the graph with single edge `(1, 2)`, the sequence
`[0, 1]` contains the absent vertex `0`, yet `is_path` raises a `KeyError`
(result `none`) instead of returning the boolean `False` the claim promises. -/
theorem c4_counterexample :
    (0 : ℕ) ∉ vertices (ofEdges [((1 : ℕ), 2)]) ∧
    is_path (ofEdges [((1 : ℕ), 2)]) [0, 1] = none := by
  decide

/-- C4 witness for the amended theorem: on the same graph, `[1, 0]` contains
the absent vertex `0` but starts at the member vertex `1`, and `is_path`
returns the normal boolean `False`. -/
theorem c4_witness :
    is_path (ofEdges [((1 : ℕ), 2)]) [1, 0] = some false :=
  ((c4_is_path_absent_vertex (ofEdges [((1 : ℕ), 2)]) (by decide)).2
    [1, 0] ⟨0, by decide, by decide⟩).2.1 1 0 [] rfl (by decide)

/-- C5: every `Digraph` state reachable from the empty graph by `add_vertex`
and `add_edge` operations satisfies the forward/backward invariant: `w` is in
`forward[v]` iff `v` is in `backward[w]`, and the two mappings have the same
key set (here, even the same key list). -/
theorem c5_forward_backward_invariant (ops : List (Op V)) :
    (∀ v w, (∃ l, alookup (buildGraph ops).tosets v = some l ∧ w ∈ l) ↔
            (∃ l, alookup (buildGraph ops).fromsets w = some l ∧ v ∈ l)) ∧
    akeys (buildGraph ops).tosets = akeys (buildGraph ops).fromsets := by
  obtain ⟨hkeys, _, _, _, hsym⟩ := GInv_buildGraph ops
  exact ⟨hsym, hkeys⟩

/-! ## `compress` (`digraph.py`, lines 315-336)

`lasttimesGo` is the `enumerate` loop filling the `lasttime` dictionary;
`compress_go` is the `while` loop.  The index strictly increases at every
iteration (the last occurrence of `walk[i]` is at least `i`), so fuel
`walk.length + 1` always suffices; the fuel-exhausted and failed-lookup
branches return `[]` and are unreachable when the dictionary is
`lasttimes walk` (every `walk[i]` is a key). -/

def lasttimesGo : List (V × Nat) → Nat → List V → List (V × Nat)
  | m, _, [] => m
  | m, i, v :: rest => lasttimesGo (assocSet m v i) (i + 1) rest

def lasttimes (walk : List V) : List (V × Nat) := lasttimesGo [] 0 walk

def compress_go (walk : List V) (lt : List (V × Nat)) : Nat → Nat → List V
  | 0, _ => []
  | fuel + 1, i =>
    if h : i < walk.length then
      walk[i] :: (match alookup lt walk[i] with
        | none => []
        | some j => compress_go walk lt fuel (j + 1))
    else []

def compress (walk : List V) : List V :=
  compress_go walk (lasttimes walk) (walk.length + 1) 0

theorem lasttimesGo_not_mem (rest : List V) :
    ∀ (m : List (V × Nat)) (i : Nat) (v : V), v ∉ rest →
      alookup (lasttimesGo m i rest) v = alookup m v := by
  induction rest with
  | nil => intro m i v _; rfl
  | cons x rest' ih =>
    intro m i v hv
    simp only [List.mem_cons, not_or] at hv
    rw [lasttimesGo, ih _ _ _ hv.2, alookup_assocSet_ne _ _ _ _ hv.1]

theorem lasttimesGo_mem (rest : List V) :
    ∀ (m : List (V × Nat)) (i : Nat) (v : V), v ∈ rest →
      ∃ k, alookup (lasttimesGo m i rest) v = some (i + k) ∧
        rest[k]? = some v ∧ ∀ j, rest[j]? = some v → j ≤ k := by
  induction rest with
  | nil => intro m i v hv; simp at hv
  | cons x rest' ih =>
    intro m i v hv
    by_cases hmem : v ∈ rest'
    · obtain ⟨k', hk1, hk2, hk3⟩ := ih (assocSet m x i) (i + 1) v hmem
      refine ⟨k' + 1, ?_, by simpa using hk2, ?_⟩
      · rw [lasttimesGo, hk1]
        congr 1
        omega
      · intro j hj
        cases j with
        | zero => omega
        | succ j' =>
          simp only [List.getElem?_cons_succ] at hj
          exact Nat.succ_le_succ (hk3 j' hj)
    · have hvx : v = x := by
        rcases List.mem_cons.mp hv with h | h
        · exact h
        · exact absurd h hmem
      subst hvx
      refine ⟨0, ?_, by simp, ?_⟩
      · rw [lasttimesGo, lasttimesGo_not_mem rest' _ _ _ hmem, alookup_assocSet_eq]
        congr 1
      · intro j hj
        cases j with
        | zero => exact Nat.le_refl 0
        | succ j' =>
          simp only [List.getElem?_cons_succ] at hj
          obtain ⟨hlt, heq⟩ := List.getElem?_eq_some_iff.mp hj
          exact absurd (heq ▸ List.getElem_mem hlt) hmem

theorem lasttimes_spec (walk : List V) (i : Nat) (h : i < walk.length) :
    ∃ j, alookup (lasttimes walk) walk[i] = some j ∧ i ≤ j ∧ j < walk.length ∧
      walk[j]? = some walk[i] ∧ ∀ m, walk[m]? = some walk[i] → m ≤ j := by
  have hv : walk[i] ∈ walk := List.getElem_mem h
  obtain ⟨k, hk1, hk2, hk3⟩ := lasttimesGo_mem walk [] 0 walk[i] hv
  simp only [Nat.zero_add] at hk1
  refine ⟨k, hk1, hk3 i (by simp [List.getElem?_eq_getElem h]), ?_, hk2, hk3⟩
  have := List.getElem?_eq_some_iff.mp hk2
  exact this.1

theorem compress_go_of_ge (walk : List V) (lt : List (V × Nat)) :
    ∀ fuel i, walk.length ≤ i → compress_go walk lt fuel i = [] := by
  intro fuel i h
  cases fuel with
  | zero => rfl
  | succ f => simp [compress_go, Nat.not_lt.mpr h]

theorem compress_step (walk : List V) (fuel i : Nat) (h : i < walk.length) :
    ∃ j, alookup (lasttimes walk) walk[i] = some j ∧ i ≤ j ∧ j < walk.length ∧
      walk[j]? = some walk[i] ∧ (∀ m, walk[m]? = some walk[i] → m ≤ j) ∧
      compress_go walk (lasttimes walk) (fuel + 1) i =
        walk[i] :: compress_go walk (lasttimes walk) fuel (j + 1) := by
  obtain ⟨j, h1, h2, h3, h4, h5⟩ := lasttimes_spec walk i h
  exact ⟨j, h1, h2, h3, h4, h5, by simp [compress_go, h, h1]⟩

theorem compress_go_mem (walk : List V) :
    ∀ fuel i x, x ∈ compress_go walk (lasttimes walk) fuel i →
      ∃ m, i ≤ m ∧ walk[m]? = some x := by
  intro fuel
  induction fuel with
  | zero => intro i x hx; simp [compress_go] at hx
  | succ f ih =>
    intro i x hx
    by_cases h : i < walk.length
    · obtain ⟨j, _, hij, _, _, _, heq⟩ := compress_step walk f i h
      rw [heq] at hx
      rcases List.mem_cons.mp hx with rfl | hx
      · exact ⟨i, Nat.le_refl i, List.getElem?_eq_getElem h⟩
      · obtain ⟨m, hm1, hm2⟩ := ih (j + 1) x hx
        exact ⟨m, by omega, hm2⟩
    · simp [compress_go, h] at hx

theorem compress_go_nodup (walk : List V) :
    ∀ fuel i, (compress_go walk (lasttimes walk) fuel i).Nodup := by
  intro fuel
  induction fuel with
  | zero => intro i; simp [compress_go]
  | succ f ih =>
    intro i
    by_cases h : i < walk.length
    · obtain ⟨j, _, _, _, _, hmax, heq⟩ := compress_step walk f i h
      rw [heq, List.nodup_cons]
      refine ⟨fun hx => ?_, ih (j + 1)⟩
      obtain ⟨m, hm1, hm2⟩ := compress_go_mem walk f (j + 1) _ hx
      have := hmax m hm2
      omega
    · simp [compress_go, h]

theorem compress_go_length (walk : List V) :
    ∀ fuel i, (compress_go walk (lasttimes walk) fuel i).length ≤ walk.length - i := by
  intro fuel
  induction fuel with
  | zero => intro i; simp [compress_go]
  | succ f ih =>
    intro i
    by_cases h : i < walk.length
    · obtain ⟨j, _, hij, hj, _, _, heq⟩ := compress_step walk f i h
      rw [heq, List.length_cons]
      have := ih (j + 1)
      omega
    · simp [compress_go, h]

theorem compress_go_sublist (walk : List V) :
    ∀ fuel i, List.Sublist (compress_go walk (lasttimes walk) fuel i) (walk.drop i) := by
  intro fuel
  induction fuel with
  | zero => intro i; simp [compress_go]
  | succ f ih =>
    intro i
    by_cases h : i < walk.length
    · obtain ⟨j, _, hij, _, _, _, heq⟩ := compress_step walk f i h
      rw [heq, List.drop_eq_getElem_cons h]
      refine List.Sublist.cons₂ _ ?_
      have hd : walk.drop (j + 1) = (walk.drop (i + 1)).drop (j - i) := by
        rw [List.drop_drop]
        congr 1
        omega
      exact (hd ▸ ih (j + 1)).trans (List.drop_sublist _ _)
    · simp [compress_go, h]

theorem compress_go_head (walk : List V) (fuel i : Nat) (h : i < walk.length) :
    (compress_go walk (lasttimes walk) (fuel + 1) i).head? = some walk[i] := by
  obtain ⟨j, _, _, _, _, _, heq⟩ := compress_step walk fuel i h
  rw [heq, List.head?_cons]

theorem compress_go_getLast (walk : List V) :
    ∀ fuel i, i < walk.length → walk.length - i ≤ fuel →
      (compress_go walk (lasttimes walk) fuel i).getLast? = walk.getLast? := by
  intro fuel
  induction fuel with
  | zero => intro i h hf; omega
  | succ f ih =>
    intro i h hf
    obtain ⟨j, _, hij, hj, hjv, _, heq⟩ := compress_step walk f i h
    rw [heq]
    by_cases hj1 : j + 1 < walk.length
    · have hf' : walk.length - (j + 1) ≤ f := by omega
      have hne : f ≠ 0 := by omega
      obtain ⟨f', rfl⟩ := Nat.exists_eq_succ_of_ne_zero hne
      have hhead := compress_go_head walk f' (j + 1) hj1
      cases hrec : compress_go walk (lasttimes walk) (f' + 1) (j + 1) with
      | nil => rw [hrec] at hhead; simp at hhead
      | cons y ys =>
        rw [List.getLast?_cons_cons, ← hrec]
        exact ih (j + 1) hj1 hf'
    · rw [compress_go_of_ge walk _ f (j + 1) (by omega)]
      have hjlast : j = walk.length - 1 := by omega
      have h1 : (walk[i] :: ([] : List V)).getLast? = some walk[i] := rfl
      rw [h1, List.getLast?_eq_getElem?, ← hjlast, hjv]

theorem compress_go_chain (G : Digraph V) (walk : List V)
    (hch : walk.Chain' (Edge G)) :
    ∀ fuel i, (compress_go walk (lasttimes walk) fuel i).Chain' (Edge G) := by
  intro fuel
  induction fuel with
  | zero => intro i; simp [compress_go]
  | succ f ih =>
    intro i
    by_cases h : i < walk.length
    · obtain ⟨j, _, hij, hj, hjv, _, heq⟩ := compress_step walk f i h
      rw [heq, List.chain'_cons']
      refine ⟨fun y hy => ?_, ih (j + 1)⟩
      have hne : compress_go walk (lasttimes walk) f (j + 1) ≠ [] := by
        intro hnil
        rw [hnil] at hy
        simp at hy
      have hj1 : j + 1 < walk.length := by
        by_contra hge
        exact hne (compress_go_of_ge walk _ f (j + 1) (by omega))
      have hfne : f ≠ 0 := by
        intro hf0
        rw [hf0] at hne
        exact hne rfl
      obtain ⟨f', rfl⟩ := Nat.exists_eq_succ_of_ne_zero hfne
      have hhead := compress_go_head walk f' (j + 1) hj1
      rw [hhead] at hy
      simp only [Option.mem_def, Option.some.injEq] at hy
      subst hy
      have hedge : Edge G walk[j] walk[j + 1] :=
        List.chain'_iff_get.mp hch j (by omega)
      have hwa : walk[j] = walk[i] := by
        have := List.getElem?_eq_some_iff.mp hjv
        obtain ⟨_, heq2⟩ := this
        exact heq2
      rwa [hwa] at hedge
    · simp [compress_go, h]

theorem compress_go_nodup_eq (walk : List V) (hnd : walk.Nodup) :
    ∀ fuel i, walk.length - i ≤ fuel →
      compress_go walk (lasttimes walk) fuel i = walk.drop i := by
  intro fuel
  induction fuel with
  | zero =>
    intro i hf
    rw [List.drop_eq_nil_iff.mpr (by omega)]
    rfl
  | succ f ih =>
    intro i hf
    by_cases h : i < walk.length
    · obtain ⟨j, _, hij, hj, hjv, _, heq⟩ := compress_step walk f i h
      have hji : j = i := by
        have h1 : walk[i]? = some walk[i] := List.getElem?_eq_getElem h
        have := List.getElem?_inj hj hnd (hjv.trans h1.symm)
        omega
      subst hji
      rw [heq, ih (j + 1) (by omega), ← List.drop_eq_getElem_cons h]
    · rw [compress_go_of_ge walk _ (f + 1) i (by omega),
        List.drop_eq_nil_iff.mpr (by omega)]

/-- C6: for every vertex sequence `w`, `compress w` contains no vertex more
than once, its length is at most the length of `w`, and `compress` is
idempotent. -/
theorem c6_compress_properties (w : List V) :
    (compress w).Nodup ∧ (compress w).length ≤ w.length ∧
      compress (compress w) = compress w := by
  have hnd : (compress w).Nodup := compress_go_nodup w (w.length + 1) 0
  refine ⟨hnd, ?_, ?_⟩
  · have := compress_go_length w (w.length + 1) 0
    simpa using this
  · show compress_go (compress w) (lasttimes (compress w))
      ((compress w).length + 1) 0 = compress w
    rw [compress_go_nodup_eq (compress w) hnd ((compress w).length + 1) 0 (by omega)]
    exact List.drop_zero _

/-- C7: for every graph `G` and non-empty sequence `w` that is a valid walk
in `G` (all vertices members, all consecutive pairs forward edges),
`compress w` is a subsequence of `w`, is a valid path (`is_path` returns
`True`), and keeps the first and last vertices of `w`. -/
theorem c7_compress_valid_walk (G : Digraph V) (hWF : WF G) (w : List V)
    (hne : w ≠ []) (hch : w.Chain' (Edge G)) (hmem : ∀ v ∈ w, v ∈ vertices G) :
    List.Sublist (compress w) w ∧ is_path G (compress w) = some true ∧
      (compress w).head? = w.head? ∧ (compress w).getLast? = w.getLast? := by
  have hlen : 0 < w.length := List.length_pos.mpr hne
  have hsub : List.Sublist (compress w) w := by
    have := compress_go_sublist w (w.length + 1) 0
    simpa using this
  have hhead : (compress w).head? = some w[0] := compress_go_head w w.length 0 hlen
  have hhead' : w.head? = some w[0] := by
    cases w with
    | nil => simp at hlen
    | cons a r => rfl
  have hlast : (compress w).getLast? = w.getLast? :=
    compress_go_getLast w (w.length + 1) 0 hlen (by omega)
  have hchain : (compress w).Chain' (Edge G) := compress_go_chain G w hch (w.length + 1) 0
  refine ⟨hsub, ?_, hhead.trans hhead'.symm, hlast⟩
  rw [is_path_eq_true_iff]
  refine ⟨?_, hchain, fun x hx => ?_⟩
  · intro h0
    rw [h0] at hhead
    simp at hhead
  · rw [hhead] at hx
    simp only [Option.some.injEq] at hx
    exact hx ▸ hmem w[0] (List.getElem_mem hlen)

/-- C7 witness: on the graph `{(1,2),(2,3),(3,2)}`, the walk `[1,2,3,2,3]`
compresses to a valid path keeping endpoints 1 and 3. -/
theorem c7_witness :
    List.Sublist (compress [1, 2, 3, 2, 3]) [1, 2, 3, 2, 3] ∧
      is_path (ofEdges [((1 : ℕ), 2), (2, 3), (3, 2)]) (compress [1, 2, 3, 2, 3]) = some true ∧
      (compress [(1 : ℕ), 2, 3, 2, 3]).head? = ([1, 2, 3, 2, 3] : List ℕ).head? ∧
      (compress [(1 : ℕ), 2, 3, 2, 3]).getLast? = ([1, 2, 3, 2, 3] : List ℕ).getLast? :=
  c7_compress_valid_walk (ofEdges [((1 : ℕ), 2), (2, 3), (3, 2)]) (by decide)
    [1, 2, 3, 2, 3] (by decide) (by decide) (by decide)

/-! ## `shortest_path` (`digraph.py`, lines 240-313)

Breadth-first search over a FIFO queue of partial paths.  `bfs_push` is the
body of the `for adj in G.adj_to(vertex)` loop; `bfs_loop` is the `while
queue` loop.  The extra `log` argument is a ghost record of the vertices
whose neighbour sets are iterated (one entry per expansion); it influences
nothing and exists to state how often a vertex is expanded.  The result is
`none` when the fuel runs out or a lookup fails, neither of which happens
from the states `shortest_path` reaches (proved below); `some none` is the
Python `None` ("no path") and `some (some p)` a returned path. -/

def bfs_push (p0 : List V) (acc : List (List V) × List V) (adj : V) :
    List (List V) × List V :=
  if adj ∈ acc.2 then acc
  else (acc.1 ++ [p0 ++ [adj]], acc.2 ++ [adj])

def bfs_loop (G : Digraph V) (dest : V) :
    Nat → List (List V) → List V → List V → Option (Option (List V) × List V)
  | 0, _, _, _ => none
  | _ + 1, [], _, log => some (none, log)
  | fuel + 1, path :: rest, visited, log =>
    match path.getLast? with
    | none => none
    | some vertex =>
      if vertex = dest then some (some path, log)
      else
        match adj_to G vertex with
        | none => none
        | some adjs =>
          let qv := adjs.foldl (bfs_push path) (rest, visited)
          bfs_loop G dest fuel qv.1 qv.2 (log ++ [vertex])

def shortest_path (G : Digraph V) (source dest : V) : Option (Option (List V)) :=
  if source ∉ vertices G ∨ dest ∉ vertices G then some none
  else (bfs_loop G dest (num_vertices G + 2) [[source]] [] []).map Prod.fst

/-- The ghost expansion log of a `shortest_path` run. -/
def shortest_path_expansions (G : Digraph V) (source dest : V) : Option (List V) :=
  if source ∉ vertices G ∨ dest ∉ vertices G then some []
  else (bfs_loop G dest (num_vertices G + 2) [[source]] [] []).map Prod.snd

theorem bfs_fold_spec (p0 : List V) :
    ∀ (adjs : List V), adjs.Nodup → ∀ (rest : List (List V)) (visited : List V),
      adjs.foldl (bfs_push p0) (rest, visited) =
        (rest ++ (adjs.filter (fun a => decide (a ∉ visited))).map (fun a => p0 ++ [a]),
         visited ++ adjs.filter (fun a => decide (a ∉ visited))) := by
  intro adjs
  induction adjs with
  | nil => intro _ rest visited; simp
  | cons a as ih =>
    intro hnd rest visited
    rw [List.nodup_cons] at hnd
    rw [List.foldl_cons]
    by_cases ha : a ∈ visited
    · have hstep : bfs_push p0 (rest, visited) a = (rest, visited) := by
        simp [bfs_push, ha]
      rw [hstep, ih hnd.2 rest visited, List.filter_cons]
      simp [ha]
    · have hstep : bfs_push p0 (rest, visited) a =
          (rest ++ [p0 ++ [a]], visited ++ [a]) := by
        simp [bfs_push, ha]
      rw [hstep, ih hnd.2 _ _, List.filter_cons]
      have hfilter : as.filter (fun x => decide (x ∉ visited ++ [a])) =
          as.filter (fun x => decide (x ∉ visited)) := by
        apply List.filter_congr
        intro x hx
        have hxa : x ≠ a := fun h => hnd.1 (h ▸ hx)
        simp [hxa, List.mem_append]
      rw [hfilter]
      simp [ha, List.append_assoc]

theorem head?_append_left {l l' : List V} {a : V} (h : l.head? = some a) :
    (l ++ l').head? = some a := by
  rw [List.head?_append, h]
  rfl

theorem getLast?_append_right {l l' : List V} {a : V} (h : l'.getLast? = some a) :
    (l ++ l').getLast? = some a := by
  rw [List.getLast?_append, h]
  rfl

/-- In a list with an element satisfying `P`, split at the last such element. -/
theorem exists_last_mem_split {P : V → Prop} [DecidablePred P] :
    ∀ L : List V, (∃ x ∈ L, P x) →
      ∃ L₁ w L₂, L = L₁ ++ w :: L₂ ∧ P w ∧ ∀ x ∈ L₂, ¬ P x := by
  intro L
  induction L with
  | nil => intro h; simp at h
  | cons a L' ih =>
    intro h
    by_cases h' : ∃ x ∈ L', P x
    · obtain ⟨L₁, w, L₂, heq, hw, hL₂⟩ := ih h'
      exact ⟨a :: L₁, w, L₂, by rw [heq]; rfl, hw, hL₂⟩
    · push_neg at h'
      obtain ⟨x, hx, hPx⟩ := h
      rcases List.mem_cons.mp hx with rfl | hx
      · exact ⟨[], x, L', rfl, hPx, h'⟩
      · exact absurd hPx (h' x hx)

theorem pairwise_of_all {α : Type} {R : α → α → Prop} (h : ∀ a b, R a b) :
    ∀ l : List α, l.Pairwise R := by
  intro l
  induction l with
  | nil => exact .nil
  | cons a l ih => exact .cons (fun b _ => h a b) ih

theorem eq_cons_of_head? {l : List V} {a : V} (h : l.head? = some a) :
    l = a :: l.tail := by
  cases l with
  | nil => simp at h
  | cons x xs =>
    simp only [List.head?_cons, Option.some.injEq] at h
    rw [h]
    rfl

/-- Loop invariant of the breadth-first search.  `q` is the pending queue of
partial paths, `vis` the visited list.  `qCover` is the frontier property:
any walk to an undiscovered vertex is dominated by a queued path extended by
a walk whose interior is undiscovered; `qDest` says that once `d` is
discovered, a globally optimal path to it is queued. -/
structure BfsInv (G : Digraph V) (s d : V) (q : List (List V)) (vis : List V) :
    Prop where
  visNodup : vis.Nodup
  visVerts : ∀ v ∈ vis, v ∈ vertices G
  qWalk : ∀ p ∈ q, p.Chain' (Edge G) ∧ p.head? = some s
  qEnd : ∀ p ∈ q, ∃ e, p.getLast? = some e ∧ (e ∈ vis ∨ p = [s])
  qSorted : q.Pairwise (fun p p' => p.length ≤ p'.length)
  qWindow : ∀ p ∈ q, ∀ p' ∈ q, p'.length ≤ p.length + 1
  qCover : ∀ t P, ValidFromTo G s t P → t ∉ vis → t ≠ s →
    ∃ qp ∈ q, ∃ e W, qp.getLast? = some e ∧ ValidFromTo G e t W ∧
      (∀ w ∈ W.tail, w ∉ vis) ∧ qp.length + (W.length - 1) ≤ P.length
  qDest : d ∈ vis → ∃ pd ∈ q, pd.getLast? = some d ∧
    ∀ P, ValidFromTo G s d P → pd.length ≤ P.length

theorem BfsInv_init (G : Digraph V) (s d : V) : BfsInv G s d [[s]] [] := by
  refine ⟨List.nodup_nil, by simp, ?_, ?_, ?_, ?_, ?_, ?_⟩
  · intro p hp
    simp only [List.mem_singleton] at hp
    subst hp
    exact ⟨by simp, rfl⟩
  · intro p hp
    simp only [List.mem_singleton] at hp
    subst hp
    exact ⟨s, rfl, Or.inr rfl⟩
  · simp
  · intro p hp p' hp'
    simp only [List.mem_singleton] at hp hp'
    subst hp
    subst hp'
    simp
  · intro t P hP ht hts
    refine ⟨[s], by simp, s, P, rfl, hP, by simp, ?_⟩
    have hlen : 1 ≤ P.length := List.length_pos.mpr hP.ne_nil
    simp only [List.length_singleton]
    omega
  · intro hd
    simp at hd

theorem BfsInv_step
    (G : Digraph V) (hWF : WF G) (s d : V) (hsd : s ≠ d)
    (p0 : List V) (rest : List (List V)) (vis : List V)
    (hInv : BfsInv G s d (p0 :: rest) vis)
    (v0 : V) (hv0 : p0.getLast? = some v0) (hv0d : v0 ≠ d)
    (adjs : List V) (hadjs : adj_to G v0 = some adjs) :
    BfsInv G s d
      (rest ++ (adjs.filter (fun a => decide (a ∉ vis))).map (fun a => p0 ++ [a]))
      (vis ++ adjs.filter (fun a => decide (a ∉ vis))) := by
  set newly := adjs.filter (fun a => decide (a ∉ vis)) with hnewdef
  have hadjnd : adjs.Nodup := adj_to_nodup hWF hadjs
  have hadjv : ∀ w ∈ adjs, w ∈ vertices G := adj_to_subset hWF hadjs
  have hnewmem : ∀ a, a ∈ newly ↔ a ∈ adjs ∧ a ∉ vis := by
    intro a
    rw [hnewdef]
    simp [List.mem_filter]
  have hnewnd : newly.Nodup := List.Nodup.filter _ hadjnd
  have hp0w := hInv.qWalk p0 (by simp)
  obtain ⟨e0, he0, hv0vis⟩ := hInv.qEnd p0 (by simp)
  rw [hv0] at he0
  injection he0 with he0
  subst he0
  have hp0ne : p0 ≠ [] := by
    intro h
    rw [h] at hv0
    simp at hv0
  have hheadmin : ∀ p ∈ p0 :: rest, p0.length ≤ p.length := by
    intro p hp
    rcases List.mem_cons.mp hp with rfl | hp
    · exact Nat.le_refl _
    · exact (List.pairwise_cons.mp hInv.qSorted).1 p hp
  have hEdgev0 : ∀ a ∈ adjs, Edge G v0 a := fun a ha => ⟨adjs, hadjs, ha⟩
  have hnewlen : ∀ x ∈ newly.map (fun a => p0 ++ [a]), x.length = p0.length + 1 := by
    intro x hx
    obtain ⟨a, _, rfl⟩ := List.mem_map.mp hx
    simp
  refine ⟨?_, ?_, ?_, ?_, ?_, ?_, ?_, ?_⟩
  · -- visNodup
    rw [List.nodup_append]
    exact ⟨hInv.visNodup, hnewnd, fun a ha ha' => ((hnewmem a).mp ha').2 ha⟩
  · -- visVerts
    intro v hv
    rcases List.mem_append.mp hv with hv | hv
    · exact hInv.visVerts v hv
    · exact hadjv v ((hnewmem v).mp hv).1
  · -- qWalk
    intro p hp
    rcases List.mem_append.mp hp with hp | hp
    · exact hInv.qWalk p (List.mem_cons_of_mem _ hp)
    · obtain ⟨a, ha, rfl⟩ := List.mem_map.mp hp
      refine ⟨?_, head?_append_left hp0w.2⟩
      refine List.Chain'.append hp0w.1 (by simp) ?_
      intro x hx y hy
      rw [hv0] at hx
      simp only [Option.mem_def, Option.some.injEq] at hx
      simp only [List.head?_cons, Option.mem_def, Option.some.injEq] at hy
      subst hx
      subst hy
      exact hEdgev0 a ((hnewmem a).mp ha).1
  · -- qEnd
    intro p hp
    rcases List.mem_append.mp hp with hp | hp
    · obtain ⟨e, he, he'⟩ := hInv.qEnd p (List.mem_cons_of_mem _ hp)
      rcases he' with he' | he'
      · exact ⟨e, he, Or.inl (List.mem_append_left _ he')⟩
      · exact ⟨e, he, Or.inr he'⟩
    · obtain ⟨a, ha, rfl⟩ := List.mem_map.mp hp
      exact ⟨a, List.getLast?_concat _, Or.inl (List.mem_append_right _ ha)⟩
  · -- qSorted
    rw [List.pairwise_append]
    refine ⟨(List.pairwise_cons.mp hInv.qSorted).2, ?_, ?_⟩
    · rw [List.pairwise_map]
      exact pairwise_of_all (fun a b => by simp) newly
    · intro p hp p' hp'
      rw [hnewlen p' hp']
      have := hInv.qWindow p0 (by simp) p (List.mem_cons_of_mem _ hp)
      omega
  · -- qWindow
    intro p hp p' hp'
    rcases List.mem_append.mp hp with hp | hp <;>
      rcases List.mem_append.mp hp' with hp' | hp'
    · exact hInv.qWindow p (List.mem_cons_of_mem _ hp) p' (List.mem_cons_of_mem _ hp')
    · rw [hnewlen p' hp']
      have := hheadmin p (List.mem_cons_of_mem _ hp)
      omega
    · rw [hnewlen p hp]
      have := hInv.qWindow p0 (by simp) p' (List.mem_cons_of_mem _ hp')
      omega
    · rw [hnewlen p hp, hnewlen p' hp']
      omega
  · -- qCover
    intro t P hP ht hts
    have htvis : t ∉ vis := fun h => ht (List.mem_append_left _ h)
    have htnew : t ∉ newly := fun h => ht (List.mem_append_right _ h)
    obtain ⟨qp, hqp, e, W, hqpe, hWv, hWtail, hlen⟩ := hInv.qCover t P hP htvis hts
    have hqplen : p0.length ≤ qp.length := hheadmin qp hqp
    by_cases hcross : ∃ x ∈ W.tail, x ∈ newly
    · obtain ⟨L₁, w, L₂, hsplit, hwnew, hL₂⟩ :=
        exists_last_mem_split (P := (· ∈ newly)) W.tail hcross
      have hWstruct : W = (e :: L₁) ++ (w :: L₂) := by
        have hWcons := eq_cons_of_head? hWv.2.1
        rw [hWcons, hsplit]
        rfl
      refine ⟨p0 ++ [w], List.mem_append_right _ (List.mem_map.mpr ⟨w, hwnew, rfl⟩),
        w, w :: L₂, List.getLast?_concat _, ⟨?_, rfl, ?_⟩, ?_, ?_⟩
      · exact hWv.1.suffix ⟨e :: L₁, hWstruct.symm⟩
      · have hlast := hWv.2.2
        rw [hWstruct, List.getLast?_append] at hlast
        cases hz : (w :: L₂).getLast? with
        | none => simp at hz
        | some z =>
          rw [hz] at hlast
          simp only [Option.or_some] at hlast
          exact hlast
      · intro x hx
        simp only [List.tail_cons] at hx
        have hxtail : x ∈ W.tail := by
          rw [hsplit]
          exact List.mem_append_right _ (List.mem_cons_of_mem _ hx)
        intro hmem
        rcases List.mem_append.mp hmem with h | h
        · exact hWtail x hxtail h
        · exact hL₂ x hx h
      · have hWlen : W.length = L₁.length + L₂.length + 2 := by
          rw [hWstruct]
          simp
          omega
        simp only [List.length_append, List.length_singleton, List.length_cons,
          List.length_nil]
        omega
    · push_neg at hcross
      rcases List.mem_cons.mp hqp with heqp | hqprest
      · -- qp is the popped path p0: the cover walk must cross into `newly`
        exfalso
        have hqpe' : p0.getLast? = some e := heqp ▸ hqpe
        have hev0 : e = v0 := by
          rw [hqpe'] at hv0
          exact Option.some.inj hv0
        cases W with
        | nil => exact absurd hWv.2.1 (by simp)
        | cons x Wt =>
          have hx : x = e := by
            have h := hWv.2.1
            simp only [List.head?_cons, Option.some.injEq] at h
            exact h
          cases Wt with
          | nil =>
            have ht0 : t = x := by
              have h := hWv.2.2
              simp only [List.getLast?_singleton, Option.some.injEq] at h
              exact h.symm
            rcases hv0vis with hv | hps
            · refine htvis ?_
              rw [ht0, hx, hev0]
              exact hv
            · have hvs : v0 = s := by
                rw [hps] at hv0
                simp only [List.getLast?_singleton, Option.some.injEq] at hv0
                exact hv0.symm
              refine hts ?_
              rw [ht0, hx, hev0, hvs]
          | cons w1 Wt' =>
            have hE : Edge G x w1 := (List.chain'_cons.mp hWv.1).1
            have hw1adj : w1 ∈ adjs := by
              obtain ⟨l, hl, hw⟩ := hE
              rw [hx, hev0, hadjs] at hl
              have hla : l = adjs := (Option.some.inj hl).symm
              exact hla ▸ hw
            have hw1vis : w1 ∉ vis := hWtail w1 (by simp)
            exact hcross w1 (by simp) ((hnewmem w1).mpr ⟨hw1adj, hw1vis⟩)
      · refine ⟨qp, List.mem_append_left _ hqprest, e, W, hqpe, hWv, ?_, hlen⟩
        intro x hx
        intro hmem
        rcases List.mem_append.mp hmem with h | h
        · exact hWtail x hx h
        · exact hcross x hx h
  · -- qDest
    intro hd
    rcases List.mem_append.mp hd with hdvis | hdnew
    · obtain ⟨pd, hpd, hpde, hpdmin⟩ := hInv.qDest hdvis
      have hpdrest : pd ∈ rest := by
        rcases List.mem_cons.mp hpd with rfl | h
        · exfalso
          rw [hv0] at hpde
          injection hpde with hpde
          exact hv0d hpde
        · exact h
      exact ⟨pd, List.mem_append_left _ hpdrest, hpde, hpdmin⟩
    · have hdvis : d ∉ vis := ((hnewmem d).mp hdnew).2
      refine ⟨p0 ++ [d], List.mem_append_right _ (List.mem_map.mpr ⟨d, hdnew, rfl⟩),
        List.getLast?_concat _, ?_⟩
      intro P hP
      obtain ⟨qp, hqp, e, W, hqpe, hWv, hWtail, hlen⟩ :=
        hInv.qCover d P hP hdvis (Ne.symm hsd)
      have hqplen : p0.length ≤ qp.length := hheadmin qp hqp
      have hW2 : 2 ≤ W.length := by
        by_contra hlt
        push_neg at hlt
        have hWne : W ≠ [] := hWv.ne_nil
        have hW1 : W.length = 1 := by
          have := List.length_pos.mpr hWne
          omega
        obtain ⟨x, hx⟩ := List.length_eq_one.mp hW1
        subst hx
        have hxe : x = e := by
          have := hWv.2.1
          simp only [List.head?_cons, Option.some.injEq] at this
          exact this
        have hxd : x = d := by
          have := hWv.2.2
          simp only [List.getLast?_singleton, Option.some.injEq] at this
          exact this
        subst hxe
        obtain ⟨e', he', he''⟩ := hInv.qEnd qp hqp
        rw [hqpe] at he'
        injection he' with he'
        subst he'
        rcases he'' with h | h
        · exact hdvis (hxd ▸ h)
        · rw [h] at hqpe
          simp only [List.getLast?_singleton, Option.some.injEq] at hqpe
          exact hsd (hqpe.trans hxd)
      simp only [List.length_append, List.length_singleton]
      omega

theorem bfs_loop_main (G : Digraph V) (hWF : WF G) (s d : V) (hs : s ∈ vertices G)
    (hsd : s ≠ d) :
    ∀ (fuel : Nat) (q : List (List V)) (vis log : List V), BfsInv G s d q vis →
      q.length + ((vertices G).length - vis.length) + 1 ≤ fuel →
      ∃ r log', bfs_loop G d fuel q vis log = some (r, log') ∧
        (∀ p, r = some p → p.Chain' (Edge G) ∧ p.head? = some s ∧
          p.getLast? = some d ∧ ∀ P, ValidFromTo G s d P → p.length ≤ P.length) ∧
        (r = none → ∀ P, ¬ ValidFromTo G s d P) := by
  intro fuel
  induction fuel with
  | zero =>
    intro q vis log hInv hf
    omega
  | succ f ih =>
    intro q vis log hInv hf
    cases q with
    | nil =>
      refine ⟨none, log, rfl, by simp, ?_⟩
      intro _ P hP
      by_cases hd : d ∈ vis
      · obtain ⟨pd, hpd, _⟩ := hInv.qDest hd
        simp at hpd
      · obtain ⟨qp, hqp, _⟩ := hInv.qCover d P hP hd (Ne.symm hsd)
        simp at hqp
    | cons p0 rest =>
      have hp0 := hInv.qWalk p0 (by simp)
      have hp0ne : p0 ≠ [] := by
        intro h
        have hh := hp0.2
        rw [h] at hh
        simp at hh
      obtain ⟨v0, hv0⟩ : ∃ v0, p0.getLast? = some v0 := by
        cases hl : p0.getLast? with
        | none => exact absurd (List.getLast?_eq_none_iff.mp hl) hp0ne
        | some x => exact ⟨x, rfl⟩
      by_cases hv0d : v0 = d
      · refine ⟨some p0, log, ?_, ?_, by simp⟩
        · simp [bfs_loop, hv0, hv0d]
        · intro p hp
          have hpe : p = p0 := (Option.some.inj hp).symm
          rw [hpe]
          refine ⟨hp0.1, hp0.2, hv0d ▸ hv0, ?_⟩
          intro P hP
          obtain ⟨e, he, hvis⟩ := hInv.qEnd p0 (by simp)
          have hed : e = d := by
            rw [hv0] at he
            exact (Option.some.inj he).symm.trans hv0d
          rcases hvis with hdvis | hps
          · obtain ⟨pd, hpd, _, hpdmin⟩ := hInv.qDest (hed ▸ hdvis)
            have hmin : p0.length ≤ pd.length := by
              rcases List.mem_cons.mp hpd with rfl | hpd
              · exact Nat.le_refl _
              · exact (List.pairwise_cons.mp hInv.qSorted).1 pd hpd
            exact hmin.trans (hpdmin P hP)
          · exfalso
            rw [hps] at hv0
            simp only [List.getLast?_singleton, Option.some.injEq] at hv0
            exact hsd (hv0.trans hv0d)
      · have hv0mem : v0 ∈ vertices G := by
          obtain ⟨e, he, hvis⟩ := hInv.qEnd p0 (by simp)
          rw [hv0] at he
          injection he with he
          subst he
          rcases hvis with h | h
          · exact hInv.visVerts v0 h
          · rw [h] at hv0
            simp only [List.getLast?_singleton, Option.some.injEq] at hv0
            exact hv0 ▸ hs
        obtain ⟨adjs, hadjs⟩ := adj_to_of_mem_vertices hv0mem
        have hadjnd : adjs.Nodup := adj_to_nodup hWF hadjs
        have hfold := bfs_fold_spec p0 adjs hadjnd rest vis
        have hstep := BfsInv_step G hWF s d hsd p0 rest vis hInv v0 hv0 hv0d adjs hadjs
        have hvis'le : (vis ++ adjs.filter (fun a => decide (a ∉ vis))).length ≤
            (vertices G).length := by
          exact ((hstep.visNodup).subperm hstep.visVerts).length_le
        obtain ⟨r, log', heq, hsound, hnone⟩ :=
          ih (rest ++ (adjs.filter (fun a => decide (a ∉ vis))).map (fun a => p0 ++ [a]))
            (vis ++ adjs.filter (fun a => decide (a ∉ vis))) (log ++ [v0]) hstep
            (by
              simp only [List.length_append, List.length_map, List.length_cons]
                at hf hvis'le ⊢
              omega)
        refine ⟨r, log', ?_, hsound, hnone⟩
        simp only [bfs_loop, hv0, hadjs, if_neg hv0d]
        rw [hfold]
        exact heq

/-- C2: for a well-formed graph, if `source` and `dest` are vertices and a
path exists, `shortest_path` returns a valid path from `source` to `dest`
of minimal length (no path from `source` to `dest` has fewer edges); in
particular `shortest_path G s s = [s]` for a member `s`; if either endpoint
is not a vertex, or no path exists, it returns the "no path" result
(Python `None`, modelled `some none`). -/
theorem c2_shortest_path_correct (G : Digraph V) (hWF : WF G) (source dest : V) :
    (source ∈ vertices G → dest ∈ vertices G → (∃ P, ValidFromTo G source dest P) →
      ∃ p, shortest_path G source dest = some (some p) ∧
        is_path G p = some true ∧ p.head? = some source ∧ p.getLast? = some dest ∧
        ∀ p', is_path G p' = some true → p'.head? = some source →
          p'.getLast? = some dest → p.length ≤ p'.length) ∧
    (source ∈ vertices G → shortest_path G source source = some (some [source])) ∧
    ((source ∉ vertices G ∨ dest ∉ vertices G ∨ ¬ ∃ P, ValidFromTo G source dest P) →
      shortest_path G source dest = some none) := by
  have hlenv : (vertices G).length = num_vertices G := by
    simp [vertices, akeys, num_vertices]
  have hcompute_sd : ∀ s : V, s ∈ vertices G →
      shortest_path G s s = some (some [s]) := by
    intro s hsv
    unfold shortest_path
    rw [if_neg (by simp [hsv])]
    have hone : bfs_loop G s (num_vertices G + 1 + 1) [[s]] [] [] =
        some (some [s], []) := by
      simp [bfs_loop]
    rw [show num_vertices G + 2 = num_vertices G + 1 + 1 from rfl, hone]
    rfl
  have hrun : source ∈ vertices G → dest ∈ vertices G → source ≠ dest →
      ∃ r log', bfs_loop G dest (num_vertices G + 2) [[source]] [] [] =
          some (r, log') ∧
        (∀ p, r = some p → p.Chain' (Edge G) ∧ p.head? = some source ∧
          p.getLast? = some dest ∧
          ∀ P, ValidFromTo G source dest P → p.length ≤ P.length) ∧
        (r = none → ∀ P, ¬ ValidFromTo G source dest P) := by
    intro hsv hdv hsd
    refine bfs_loop_main G hWF source dest hsv hsd (num_vertices G + 2)
      [[source]] [] [] (BfsInv_init G source dest) ?_
    simp only [List.length_singleton, List.length_nil, hlenv]
    omega
  refine ⟨?_, fun hsv => hcompute_sd source hsv, ?_⟩
  · intro hsv hdv hreach
    by_cases hsd : source = dest
    · subst hsd
      refine ⟨[source], hcompute_sd source hsv, ?_, rfl, rfl, ?_⟩
      · exact is_path_eq_true_of_valid ValidFromTo.single hsv
      · intro p' h1 h2 h3
        have hne : p' ≠ [] := by
          intro h
          rw [h] at h2
          simp at h2
        have := List.length_pos.mpr hne
        simpa using this
    · obtain ⟨r, log', heq, hsound, hnone⟩ := hrun hsv hdv hsd
      unfold shortest_path
      rw [if_neg (by simp [hsv, hdv]), heq]
      cases r with
      | none =>
        exfalso
        obtain ⟨P, hP⟩ := hreach
        exact hnone rfl P hP
      | some p =>
        obtain ⟨hch, hh, hl, hmin⟩ := hsound p rfl
        refine ⟨p, rfl, ?_, hh, hl, ?_⟩
        · exact is_path_eq_true_of_valid ⟨hch, hh, hl⟩ hsv
        · intro p' h1 h2 h3
          exact hmin p' (valid_of_is_path h1 h2 h3).1
  · intro hcase
    by_cases hsv : source ∈ vertices G
    · by_cases hdv : dest ∈ vertices G
      · have hnp : ¬ ∃ P, ValidFromTo G source dest P := by
          rcases hcase with h | h | h
          · exact absurd hsv h
          · exact absurd hdv h
          · exact h
        have hsd : source ≠ dest := by
          intro he
          subst he
          exact hnp ⟨[source], ValidFromTo.single⟩
        obtain ⟨r, log', heq, hsound, hnone⟩ := hrun hsv hdv hsd
        unfold shortest_path
        rw [if_neg (by simp [hsv, hdv]), heq]
        cases r with
        | none => rfl
        | some p =>
          exfalso
          obtain ⟨hch, hh, hl, _⟩ := hsound p rfl
          exact hnp ⟨p, hch, hh, hl⟩
      · unfold shortest_path
        rw [if_pos (Or.inr hdv)]
    · unfold shortest_path
      rw [if_pos (Or.inl hsv)]

/-- C2 witness: on the doctest graph, `shortest_path` from 1 to 7 yields a
valid minimal path. -/
theorem c2_witness :
    ∃ p, shortest_path (ofEdges [((1 : ℕ), 2), (2, 3), (3, 4), (4, 5), (1, 6),
        (3, 6), (6, 7)]) 1 7 = some (some p) ∧
      is_path (ofEdges [((1 : ℕ), 2), (2, 3), (3, 4), (4, 5), (1, 6),
        (3, 6), (6, 7)]) p = some true ∧
      p.head? = some 1 ∧ p.getLast? = some 7 ∧
      ∀ p', is_path (ofEdges [((1 : ℕ), 2), (2, 3), (3, 4), (4, 5), (1, 6),
        (3, 6), (6, 7)]) p' = some true → p'.head? = some 1 →
        p'.getLast? = some 7 → p.length ≤ p'.length :=
  (c2_shortest_path_correct (ofEdges [((1 : ℕ), 2), (2, 3), (3, 4), (4, 5), (1, 6),
      (3, 6), (6, 7)]) (by decide) 1 7).1 (by decide) (by decide)
    ⟨[1, 6, 7], by decide⟩

theorem countP_eq_count (l : List V) (u : V) :
    l.countP (fun a => decide (a = u)) = l.count u := by
  induction l with
  | nil => rfl
  | cons a l ih =>
    by_cases h : a = u <;>
      simp [List.countP_cons, List.count_cons, h, ih]

theorem bfs_log_count (G : Digraph V) (hWF : WF G) (s d : V) :
    ∀ (fuel : Nat) (q : List (List V)) (vis log : List V) (r : Option (List V))
      (log' : List V),
      bfs_loop G d fuel q vis log = some (r, log') →
      (∀ v : V, q.countP (fun p => decide (p.getLast? = some v)) + log.count v ≤
        (if v ∈ vis then 1 else 0) + (if v = s then 1 else 0)) →
      ∀ v : V, log'.count v ≤ 1 + (if v = s then 1 else 0) := by
  intro fuel
  induction fuel with
  | zero =>
    intro q vis log r log' heq hbound v
    simp [bfs_loop] at heq
  | succ f ih =>
    intro q vis log r log' heq hbound v
    cases q with
    | nil =>
      simp only [bfs_loop] at heq
      obtain ⟨-, hl⟩ := Prod.mk.injEq _ _ _ _ ▸ Option.some.inj heq
      rw [← hl]
      have hb := hbound v
      by_cases hvs : v = s
      · subst hvs
        by_cases hv : v ∈ vis <;> simp [hv] at hb ⊢ <;> omega
      · by_cases hv : v ∈ vis <;> simp [hv, hvs] at hb ⊢ <;> omega
    | cons p0 rest =>
      cases hv0 : p0.getLast? with
      | none =>
        simp only [bfs_loop, hv0] at heq
        exact Option.noConfusion heq
      | some v0 =>
        by_cases hv0d : v0 = d
        · simp only [bfs_loop, hv0, hv0d, if_pos rfl] at heq
          obtain ⟨-, hl⟩ := Prod.mk.injEq _ _ _ _ ▸ Option.some.inj heq
          rw [← hl]
          have hb := hbound v
          by_cases hvs : v = s
          · subst hvs
            by_cases hv : v ∈ vis <;> simp [hv] at hb ⊢ <;> omega
          · by_cases hv : v ∈ vis <;> simp [hv, hvs] at hb ⊢ <;> omega
        · cases hadj : adj_to G v0 with
          | none =>
            simp only [bfs_loop, hv0, if_neg hv0d, hadj] at heq
            exact Option.noConfusion heq
          | some adjs =>
            have hadjnd : adjs.Nodup := adj_to_nodup hWF hadj
            have hfold := bfs_fold_spec p0 adjs hadjnd rest vis
            simp only [bfs_loop, hv0, if_neg hv0d, hadj] at heq
            rw [hfold] at heq
            refine ih _ _ _ _ _ heq ?_ v
            intro u
            have hb := hbound u
            set newly := adjs.filter (fun a => decide (a ∉ vis)) with hnewdef
            have hnewvis : ∀ a ∈ newly, a ∉ vis := by
              intro a ha
              rw [hnewdef] at ha
              simp [List.mem_filter] at ha
              exact ha.2
            have hnewnd : newly.Nodup := List.Nodup.filter _ hadjnd
            have hcount_new : newly.count u ≤ (if u ∈ newly then 1 else 0) := by
              by_cases hu : u ∈ newly
              · rw [if_pos hu]
                exact List.nodup_iff_count_le_one.mp hnewnd u
              · rw [if_neg hu]
                exact Nat.le_of_eq (List.count_eq_zero.mpr hu)
            have hmap : (newly.map (fun a => p0 ++ [a])).countP
                (fun p => decide (p.getLast? = some u)) = newly.count u := by
              rw [List.countP_map]
              rw [← countP_eq_count]
              apply List.countP_congr
              intro a _
              simp [List.getLast?_concat, eq_comm]
            have hql : List.countP (fun p => decide (p.getLast? = some u))
                (rest ++ newly.map (fun a => p0 ++ [a])) =
                List.countP (fun p => decide (p.getLast? = some u)) rest +
                  newly.count u := by
              rw [List.countP_append, hmap]
            have hll : (log ++ [v0]).count u =
                log.count u + (if u = v0 then 1 else 0) := by
              rw [List.count_append]
              by_cases h : u = v0 <;> simp [h, List.count_cons]
            have hbq : List.countP (fun p => decide (p.getLast? = some u))
                (p0 :: rest) =
                List.countP (fun p => decide (p.getLast? = some u)) rest +
                  (if u = v0 then 1 else 0) := by
              rw [List.countP_cons, hv0]
              by_cases h : u = v0
              · simp [h]
              · have h' : ¬ v0 = u := fun hh => h hh.symm
                simp [h, h']
            have hmem_split : (if u ∈ vis ++ newly then 1 else 0) =
                (if u ∈ vis then 1 else 0) + (if u ∈ newly then (1 : Nat) else 0) := by
              by_cases h1 : u ∈ vis
              · rw [if_pos h1, if_pos (List.mem_append_left _ h1),
                  if_neg (fun h2 => hnewvis u h2 h1)]
              · by_cases h2 : u ∈ newly
                · rw [if_pos (List.mem_append_right _ h2), if_neg h1, if_pos h2]
                · rw [if_neg h1, if_neg h2, if_neg ?_]
                  intro hc
                  rcases List.mem_append.mp hc with h | h
                  · exact h1 h
                  · exact h2 h
            rw [hql, hll, hmem_split]
            rw [hbq] at hb
            split_ifs at hb hcount_new ⊢ <;> omega

/-- C9 (amended): during a run of `shortest_path` on member vertices, every
vertex other than the source is expanded (dequeued and neighbour-iterated) at
most once, because it is marked visited the first time it is enqueued as a
neighbour.  The source itself is never marked visited when it is initially
enqueued, so it can be re-enqueued once as a neighbour and expanded up to
twice. -/
theorem c9_expansions_bound (G : Digraph V) (hWF : WF G) (s d : V)
    (hs : s ∈ vertices G) (hd : d ∈ vertices G) (log : List V)
    (hrun : shortest_path_expansions G s d = some log) :
    (∀ v, v ≠ s → log.count v ≤ 1) ∧ log.count s ≤ 2 := by
  unfold shortest_path_expansions at hrun
  rw [if_neg (by simp [hs, hd])] at hrun
  cases hres : bfs_loop G d (num_vertices G + 2) [[s]] [] [] with
  | none =>
    rw [hres] at hrun
    simp at hrun
  | some rl =>
    rw [hres] at hrun
    obtain ⟨r, log'⟩ := rl
    simp only [Option.map_some', Option.some.injEq] at hrun
    have hinit : ∀ v : V, ([[s]] : List (List V)).countP
        (fun p => decide (p.getLast? = some v)) + ([] : List V).count v ≤
        (if v ∈ ([] : List V) then 1 else 0) + (if v = s then 1 else 0) := by
      intro v
      by_cases hv : v = s
      · simp [hv, List.countP_cons]
      · have h' : ¬ s = v := fun hh => hv hh.symm
        simp [List.countP_cons, hv, h']
    have hcnt := bfs_log_count G hWF s d (num_vertices G + 2) [[s]] [] [] r log'
      hres hinit
    constructor
    · intro v hv
      have := hcnt v
      rw [if_neg hv] at this
      rw [← hrun]
      omega
    · have := hcnt s
      rw [if_pos rfl] at this
      rw [← hrun]
      omega

/-- C9 counterexample: on the graph `{(1,2),(2,1),(2,3)}` with query
`shortest_path(G, 1, 3)`, the source vertex 1 is expanded twice (expansion
log `[1, 2, 1]`): it is never marked visited when initially enqueued, is
re-enqueued as a neighbour of 2, and is dequeued and expanded again. -/
theorem c9_counterexample :
    shortest_path_expansions (ofEdges [((1 : ℕ), 2), (2, 1), (2, 3)]) 1 3 =
        some [1, 2, 1] ∧
      ¬ (([1, 2, 1] : List ℕ).count 1 ≤ 1) := by
  decide

/-- C9 witness for the amended theorem, on the counterexample's run. -/
theorem c9_witness :
    (∀ v, v ≠ 1 → ([1, 2, 1] : List ℕ).count v ≤ 1) ∧
      ([1, 2, 1] : List ℕ).count 1 ≤ 2 :=
  c9_expansions_bound (ofEdges [((1 : ℕ), 2), (2, 1), (2, 3)]) (by decide) 1 3
    (by decide) (by decide) [1, 2, 1] (by decide)

/-! ## `least_cost_path` (`dijkstra.py`)

Costs are rationals (the Python code works with arbitrary real-valued
costs; the server feeds it floats).  `minSnd` is
`min(todo.items(), key=lambda x: x[1])`, which returns the first minimal
item in insertion order; `relax` is the body of the
`for n in G.adj_to(cur)` loop; `lcp_loop` is the `while todo and (dest not
in visited)` loop; `reconstruct` is the parent-walking `while` loop.  In
the result type, `none` means the fuel ran out (shown unreachable),
`some (.error ())` a raised `KeyError`, and `some (.ok l)` a returned
list. -/

def minSnd : List (V × ℚ) → Option (V × ℚ)
  | [] => none
  | x :: xs =>
    match minSnd xs with
    | none => some x
    | some m => if x.2 ≤ m.2 then some x else some m

def relax (cost : V × V → ℚ) (cur : V) (c : ℚ) (visited : List V)
    (tp : List (V × ℚ) × List (V × V)) (n : V) : List (V × ℚ) × List (V × V) :=
  if n ∈ visited then tp
  else
    match alookup tp.1 n with
    | none => (assocSet tp.1 n (c + cost (cur, n)), assocSet tp.2 n cur)
    | some dn =>
      if c + cost (cur, n) < dn then
        (assocSet tp.1 n (c + cost (cur, n)), assocSet tp.2 n cur)
      else tp

def lcp_loop (G : Digraph V) (cost : V × V → ℚ) (dest : V) :
    Nat → List (V × ℚ) → List V → List (V × V) →
      Option (Except Unit (List V × List (V × V)))
  | 0, _, _, _ => none
  | fuel + 1, todo, visited, parent =>
    if todo = [] ∨ dest ∈ visited then some (.ok (visited, parent))
    else
      match minSnd todo with
      | none => none
      | some (cur, c) =>
        let todo' := eraseKey todo cur
        let visited' := visited ++ [cur]
        match adj_to G cur with
        | none => some (.error ())
        | some adjs =>
          let tp := adjs.foldl (relax cost cur c visited') (todo', parent)
          lcp_loop G cost dest fuel tp.1 visited' tp.2

def reconstruct (parent : List (V × V)) (start : V) :
    Nat → V → List V → Option (List V)
  | 0, _, _ => none
  | fuel + 1, it, acc =>
    match alookup parent it with
    | none => none
    | some p =>
      if p = start then some (acc ++ [start])
      else reconstruct parent start fuel p (acc ++ [p])

def least_cost_path (G : Digraph V) (cost : V × V → ℚ) (start dest : V) :
    Option (Except Unit (List V)) :=
  if start = dest ∧ start ∉ vertices G then some (.ok [])
  else
    match lcp_loop G cost dest (num_vertices G + 2) [(start, 0)] [] [] with
    | none => none
    | some (.error e) => some (.error e)
    | some (.ok (visited, parent)) =>
      if start = dest ∧ start ∈ vertices G then some (.ok [start])
      else if dest ∈ visited then
        match reconstruct parent start (num_vertices G + 2) dest [dest] with
        | none => none
        | some path => some (.ok path.reverse)
      else some (.ok [])

/-- Total cost of a vertex sequence: the sum of `cost` over consecutive
pairs. -/
def walkCost (cost : V × V → ℚ) (p : List V) : ℚ :=
  ((p.zip p.tail).map cost).sum

theorem minSnd_isSome : ∀ (l : List (V × ℚ)), l ≠ [] → (minSnd l).isSome = true := by
  intro l
  induction l with
  | nil => intro h; exact absurd rfl h
  | cons a l ih =>
    intro _
    cases hm : minSnd l with
    | none => simp [minSnd, hm]
    | some m =>
      by_cases hle : a.2 ≤ m.2 <;> simp [minSnd, hm, hle]

theorem minSnd_spec : ∀ (l : List (V × ℚ)) (x : V × ℚ), minSnd l = some x →
    x ∈ l ∧ ∀ p ∈ l, x.2 ≤ p.2 := by
  intro l
  induction l with
  | nil => intro x hx; simp [minSnd] at hx
  | cons a l ih =>
    intro x hx
    cases hm : minSnd l with
    | none =>
      simp only [minSnd, hm] at hx
      injection hx with hx
      subst hx
      cases l with
      | nil => exact ⟨by simp, by simp⟩
      | cons b l' =>
        have hiss := minSnd_isSome (b :: l') (by simp)
        rw [hm] at hiss
        simp at hiss
    | some m =>
      simp only [minSnd, hm] at hx
      obtain ⟨hmem, hmin⟩ := ih m hm
      by_cases hle : a.2 ≤ m.2
      · rw [if_pos hle] at hx
        injection hx with hx
        subst hx
        refine ⟨by simp, ?_⟩
        intro p hp
        rcases List.mem_cons.mp hp with rfl | hp
        · exact le_refl _
        · exact hle.trans (hmin p hp)
      · rw [if_neg hle] at hx
        injection hx with hx
        subst hx
        refine ⟨List.mem_cons_of_mem _ hmem, ?_⟩
        intro p hp
        rcases List.mem_cons.mp hp with rfl | hp
        · exact le_of_lt (lt_of_not_le hle)
        · exact hmin p hp

theorem alookup_of_mem_nodup {β : Type} {m : List (V × β)} {v : V} {b : β}
    (hmem : (v, b) ∈ m) (hnd : (akeys m).Nodup) : alookup m v = some b := by
  induction m with
  | nil => simp at hmem
  | cons p rest ih =>
    obtain ⟨k, x⟩ := p
    simp only [akeys, List.map_cons, List.nodup_cons] at hnd
    rcases List.mem_cons.mp hmem with heq | hmem'
    · injection heq with h1 h2
      subst h1
      subst h2
      simp [alookup]
    · have hvk : v ≠ k := by
        intro h
        subst h
        exact hnd.1 (by simpa [akeys] using List.mem_map_of_mem Prod.fst hmem')
      simp only [alookup, if_neg hvk]
      exact ih hmem' (by simpa [akeys] using hnd.2)

theorem mem_akeys_eraseKey {β : Type} (m : List (V × β)) (v : V)
    (hnd : (akeys m).Nodup) (k : V) :
    k ∈ akeys (eraseKey m v) ↔ k ∈ akeys m ∧ k ≠ v := by
  induction m with
  | nil => simp [eraseKey, akeys]
  | cons p rest ih =>
    obtain ⟨k', b'⟩ := p
    simp only [akeys, List.map_cons, List.nodup_cons] at hnd
    by_cases hv : v = k'
    · subst hv
      simp only [eraseKey, if_pos rfl]
      constructor
      · intro hk
        refine ⟨by simp [akeys]; right; simpa [akeys] using hk, ?_⟩
        intro h
        subst h
        exact hnd.1 (by simpa [akeys] using hk)
      · rintro ⟨hk, hkv⟩
        simp only [akeys, List.map_cons, List.mem_cons] at hk
        rcases hk with h | h
        · exact absurd h hkv
        · simpa [akeys] using h
    · simp only [eraseKey, if_neg hv, akeys, List.map_cons, List.mem_cons]
      rw [show (List.map Prod.fst (eraseKey rest v) : List V) =
        akeys (eraseKey rest v) from rfl]
      rw [ih (by simpa [akeys] using hnd.2)]
      constructor
      · rintro (rfl | ⟨h1, h2⟩)
        · exact ⟨Or.inl rfl, fun h => hv h.symm⟩
        · exact ⟨Or.inr (by simpa [akeys] using h1), h2⟩
      · rintro ⟨h1 | h1, h2⟩
        · exact Or.inl h1
        · exact Or.inr ⟨by simpa [akeys] using h1, h2⟩

theorem walkCost_cons₂ (cost : V × V → ℚ) (a b : V) (p : List V) :
    walkCost cost (a :: b :: p) = cost (a, b) + walkCost cost (b :: p) := by
  simp [walkCost]

theorem walkCost_nonneg (G : Digraph V) (cost : V × V → ℚ)
    (hc : ∀ e ∈ edges G, 0 ≤ cost e) :
    ∀ p : List V, p.Chain' (Edge G) → 0 ≤ walkCost cost p := by
  intro p
  induction p with
  | nil => intro _; exact le_refl 0
  | cons a rest ih =>
    intro hch
    cases rest with
    | nil => exact le_refl 0
    | cons b r =>
      obtain ⟨he, hch'⟩ := List.chain'_cons.mp hch
      rw [walkCost_cons₂]
      have h1 : 0 ≤ cost (a, b) := hc (a, b) he.mem_edges
      have h2 : 0 ≤ walkCost cost (b :: r) := ih hch'
      linarith

theorem walkCost_append_edge (cost : V × V → ℚ) :
    ∀ (p : List V) (u w : V), p.getLast? = some u →
      walkCost cost (p ++ [w]) = walkCost cost p + cost (u, w) := by
  intro p
  induction p with
  | nil => intro u w h; simp at h
  | cons a rest ih =>
    intro u w h
    cases rest with
    | nil =>
      simp only [List.getLast?_singleton, Option.some.injEq] at h
      subst h
      simp [walkCost]
    | cons b r =>
      have hlast : (b :: r).getLast? = some u := by
        rw [← h]
        rfl
      have := ih u w hlast
      show walkCost cost (a :: b :: (r ++ [w])) = _
      rw [walkCost_cons₂]
      rw [show (b : V) :: (r ++ [w]) = (b :: r) ++ [w] from rfl, this,
        walkCost_cons₂]
      ring

theorem valid_append_edge {G : Digraph V} {s u w : V} {p : List V}
    (h : ValidFromTo G s u p) (he : Edge G u w) :
    ValidFromTo G s w (p ++ [w]) := by
  refine ⟨?_, head?_append_left h.2.1, List.getLast?_concat _⟩
  refine List.Chain'.append h.1 (by simp) ?_
  intro x hx y hy
  rw [h.2.2] at hx
  simp only [Option.mem_def, Option.some.injEq] at hx
  simp only [List.head?_cons, Option.mem_def, Option.some.injEq] at hy
  subst hx
  subst hy
  exact he

/-- `c` is the optimal cost from `s` to `v`: attained by some walk and a
lower bound of all walks. -/
def IsOptCost (G : Digraph V) (cost : V × V → ℚ) (s v : V) (c : ℚ) : Prop :=
  (∃ p, ValidFromTo G s v p ∧ walkCost cost p = c) ∧
    ∀ p, ValidFromTo G s v p → c ≤ walkCost cost p

theorem IsOptCost.start_eq_zero {G : Digraph V} {cost : V × V → ℚ} {s : V} {c : ℚ}
    (hc : ∀ e ∈ edges G, 0 ≤ cost e) (h : IsOptCost G cost s s c) : c = 0 := by
  have h1 : c ≤ 0 := by
    have := h.2 [s] ValidFromTo.single
    simpa [walkCost] using this
  have h2 : 0 ≤ c := by
    obtain ⟨p, hp, hcp⟩ := h.1
    rw [← hcp]
    exact walkCost_nonneg G cost hc p hp.1
  linarith

theorem relax_lookup_ne (cost : V × V → ℚ) (cur : V) (c : ℚ) (visited : List V)
    (tp : List (V × ℚ) × List (V × V)) (a w : V) (hw : w ≠ a) :
    alookup (relax cost cur c visited tp a).1 w = alookup tp.1 w ∧
    alookup (relax cost cur c visited tp a).2 w = alookup tp.2 w := by
  by_cases hv : a ∈ visited
  · simp [relax, hv]
  · simp only [relax, if_neg hv]
    cases halook : alookup tp.1 a with
    | none => exact ⟨alookup_assocSet_ne _ _ _ _ hw, alookup_assocSet_ne _ _ _ _ hw⟩
    | some dn =>
      by_cases hlt : c + cost (cur, a) < dn
      · simp only [if_pos hlt]
        exact ⟨alookup_assocSet_ne _ _ _ _ hw, alookup_assocSet_ne _ _ _ _ hw⟩
      · simp [if_neg hlt]

theorem relax_lookup_self (cost : V × V → ℚ) (cur : V) (c : ℚ) (visited : List V)
    (tp : List (V × ℚ) × List (V × V)) (a : V) (ha : a ∉ visited) :
    alookup (relax cost cur c visited tp a).1 a =
      (match alookup tp.1 a with
       | none => some (c + cost (cur, a))
       | some dn => some (min dn (c + cost (cur, a)))) ∧
    alookup (relax cost cur c visited tp a).2 a =
      (if alookup tp.1 a = none ∨
          (∃ dn, alookup tp.1 a = some dn ∧ c + cost (cur, a) < dn)
       then some cur else alookup tp.2 a) := by
  simp only [relax, if_neg ha]
  cases h : alookup tp.1 a with
  | none =>
    constructor
    · exact alookup_assocSet_eq _ _ _
    · rw [if_pos (Or.inl rfl)]
      exact alookup_assocSet_eq _ _ _
  | some dn =>
    by_cases hlt : c + cost (cur, a) < dn
    · simp only [if_pos hlt]
      constructor
      · rw [alookup_assocSet_eq]
        rw [min_eq_right (le_of_lt hlt)]
      · rw [if_pos (Or.inr ⟨dn, rfl, hlt⟩)]
        exact alookup_assocSet_eq _ _ _
    · simp only [if_neg hlt]
      constructor
      · rw [h, min_eq_left (le_of_not_lt hlt)]
      · rw [if_neg ?_]
        push_neg
        refine ⟨by simp, ?_⟩
        intro dn' hdn'
        injection hdn' with hdn'
        subst hdn'
        exact le_of_not_lt hlt

theorem relax_fold_not_mem (cost : V × V → ℚ) (cur : V) (c : ℚ) (visited : List V) :
    ∀ (l : List V) (tp : List (V × ℚ) × List (V × V)) (w : V),
      (w ∉ l ∨ w ∈ visited) →
      alookup (l.foldl (relax cost cur c visited) tp).1 w = alookup tp.1 w ∧
      alookup (l.foldl (relax cost cur c visited) tp).2 w = alookup tp.2 w := by
  intro l
  induction l with
  | nil => intro tp w _; exact ⟨rfl, rfl⟩
  | cons a as ih =>
    intro tp w hw
    rw [List.foldl_cons]
    have hstep : alookup (relax cost cur c visited tp a).1 w = alookup tp.1 w ∧
        alookup (relax cost cur c visited tp a).2 w = alookup tp.2 w := by
      by_cases hwa : w = a
      · subst hwa
        rcases hw with hw | hw
        · exact absurd (by simp) hw
        · simp [relax, hw]
      · exact relax_lookup_ne cost cur c visited tp a w hwa
    have hrest : w ∉ as ∨ w ∈ visited := by
      rcases hw with hw | hw
      · exact Or.inl (fun h => hw (List.mem_cons_of_mem _ h))
      · exact Or.inr hw
    obtain ⟨h1, h2⟩ := ih (relax cost cur c visited tp a) w hrest
    rw [h1, h2, hstep.1, hstep.2]
    exact ⟨rfl, rfl⟩

theorem relax_fold_mem (cost : V × V → ℚ) (cur : V) (c : ℚ) (visited : List V) :
    ∀ (l : List V), l.Nodup → ∀ (tp : List (V × ℚ) × List (V × V)) (w : V),
      w ∈ l → w ∉ visited →
      alookup (l.foldl (relax cost cur c visited) tp).1 w =
        (match alookup tp.1 w with
         | none => some (c + cost (cur, w))
         | some dw => some (min dw (c + cost (cur, w)))) ∧
      alookup (l.foldl (relax cost cur c visited) tp).2 w =
        (if alookup tp.1 w = none ∨
            (∃ dw, alookup tp.1 w = some dw ∧ c + cost (cur, w) < dw)
         then some cur else alookup tp.2 w) := by
  intro l
  induction l with
  | nil => intro _ tp w hw; simp at hw
  | cons a as ih =>
    intro hnd tp w hw hwv
    rw [List.nodup_cons] at hnd
    rw [List.foldl_cons]
    by_cases hwa : w = a
    · subst hwa
      obtain ⟨h1, h2⟩ := relax_fold_not_mem cost cur c visited as
        (relax cost cur c visited tp w) w (Or.inl hnd.1)
      rw [h1, h2]
      exact relax_lookup_self cost cur c visited tp w hwv
    · have hwas : w ∈ as := by
        rcases List.mem_cons.mp hw with h | h
        · exact absurd h hwa
        · exact h
      obtain ⟨h1, h2⟩ := relax_lookup_ne cost cur c visited tp a w hwa
      obtain ⟨h3, h4⟩ := ih hnd.2 (relax cost cur c visited tp a) w hwas hwv
      rw [h3, h4, h1, h2]
      exact ⟨rfl, rfl⟩

theorem relax_fold_keys_nodup (cost : V × V → ℚ) (cur : V) (c : ℚ)
    (visited : List V) :
    ∀ (l : List V) (tp : List (V × ℚ) × List (V × V)),
      (akeys tp.1).Nodup →
      (akeys (l.foldl (relax cost cur c visited) tp).1).Nodup := by
  intro l
  induction l with
  | nil => intro tp h; exact h
  | cons a as ih =>
    intro tp h
    rw [List.foldl_cons]
    refine ih _ ?_
    by_cases hv : a ∈ visited
    · simpa [relax, hv] using h
    · simp only [relax, if_neg hv]
      cases halook : alookup tp.1 a with
      | none =>
        show (akeys (assocSet tp.1 a _)).Nodup
        rw [akeys_assocSet]
        by_cases hk : a ∈ akeys tp.1
        · rw [if_pos hk]; exact h
        · rw [if_neg hk]
          simpa [List.nodup_append] using ⟨h, hk⟩
      | some dn =>
        by_cases hlt : c + cost (cur, a) < dn
        · simp only [if_pos hlt]
          show (akeys (assocSet tp.1 a _)).Nodup
          rw [akeys_assocSet]
          by_cases hk : a ∈ akeys tp.1
          · rw [if_pos hk]; exact h
          · rw [if_neg hk]
            simpa [List.nodup_append] using ⟨h, hk⟩
        · simpa [if_neg hlt] using h

theorem get_append_left_aux {α : Type} (l₁ l₂ : List α) (i : ℕ)
    (h : i < l₁.length) (h' : i < (l₁ ++ l₂).length) :
    (l₁ ++ l₂).get ⟨i, h'⟩ = l₁.get ⟨i, h⟩ := by
  induction l₁ generalizing i with
  | nil => simp at h
  | cons a l ih =>
    cases i with
    | zero => rfl
    | succ n =>
      exact ih n (Nat.lt_of_succ_lt_succ h)
        (by simpa using Nat.lt_of_succ_lt_succ h')

theorem get_concat_self {α : Type} (l : List α) (a : α)
    (h : l.length < (l ++ [a]).length) :
    (l ++ [a]).get ⟨l.length, h⟩ = a := by
  induction l with
  | nil => rfl
  | cons b l ih => exact ih (by simp)

theorem valid_concat_decomp {G : Digraph V} {s t x : V} {Q : List V}
    (h : ValidFromTo G s t (Q ++ [x])) :
    x = t ∧ (Q = [] → t = s) ∧
      ∀ u, Q.getLast? = some u → ValidFromTo G s u Q ∧ Edge G u t := by
  obtain ⟨hch, hhd, hlast⟩ := h
  have hx : x = t := by
    rw [List.getLast?_concat] at hlast
    injection hlast with hlast
  refine ⟨hx, ?_, ?_⟩
  · intro hQ
    subst hQ
    rw [List.nil_append, List.head?_cons] at hhd
    injection hhd with hhd
    exact hx.symm.trans hhd
  · intro u hu
    have hQne : Q ≠ [] := by
      intro h0
      rw [h0] at hu
      cases hu
    rw [List.chain'_append] at hch
    obtain ⟨hchQ, _, hcross⟩ := hch
    have hhdQ : Q.head? = some s := by
      cases Q with
      | nil => exact absurd rfl hQne
      | cons a q =>
        rw [List.cons_append, List.head?_cons] at hhd
        rw [List.head?_cons]
        exact hhd
    refine ⟨⟨hchQ, hhdQ, hu⟩, ?_⟩
    have he : Edge G u x := hcross u (by rw [hu]; rfl) x rfl
    exact hx ▸ he

/-- Invariant of the `least_cost_path` main loop. `dists` is a ghost
record of the settled vertices in settling order, each paired with its
final (optimal) cost; the loop's `visited` list is `dists.map Prod.fst`. -/
structure LcpInv (G : Digraph V) (cost : V × V → ℚ) (s : V)
    (todo : List (V × ℚ)) (dists : List (V × ℚ))
    (parent : List (V × V)) : Prop where
  visNodup : (dists.map Prod.fst).Nodup
  visVerts : ∀ v ∈ dists.map Prod.fst, v ∈ vertices G
  todoNodup : (akeys todo).Nodup
  todoVerts : ∀ v ∈ akeys todo, v ∈ vertices G
  todoNotVis : ∀ v ∈ akeys todo, v ∉ dists.map Prod.fst
  settledOpt : ∀ vc ∈ dists, IsOptCost G cost s vc.1 vc.2
  settledParent : ∀ (i : ℕ) (hi : i < dists.length),
    (dists.get ⟨i, hi⟩).1 ≠ s →
    ∃ (j : ℕ) (hj : j < dists.length), j < i ∧
      alookup parent (dists.get ⟨i, hi⟩).1 = some (dists.get ⟨j, hj⟩).1 ∧
      Edge G (dists.get ⟨j, hj⟩).1 (dists.get ⟨i, hi⟩).1 ∧
      (dists.get ⟨i, hi⟩).2 = (dists.get ⟨j, hj⟩).2 +
        cost ((dists.get ⟨j, hj⟩).1, (dists.get ⟨i, hi⟩).1)
  todoAttained : ∀ v c, alookup todo v = some c →
    ∃ p, ValidFromTo G s v p ∧ walkCost cost p = c
  todoParent : ∀ v c, alookup todo v = some c → v ≠ s →
    ∃ u cu, (u, cu) ∈ dists ∧ alookup parent v = some u ∧
      Edge G u v ∧ c = cu + cost (u, v)
  frontier : ∀ u cu, (u, cu) ∈ dists → ∀ w, Edge G u w →
    w ∉ dists.map Prod.fst →
    ∃ cw, alookup todo w = some cw ∧ cw ≤ cu + cost (u, w)
  startState : dists = [] → todo = [(s, 0)] ∧ parent = []

theorem LcpInv.start_settled {G : Digraph V} {cost : V × V → ℚ} {s : V}
    {todo dists : List (V × ℚ)} {parent : List (V × V)}
    (hInv : LcpInv G cost s todo dists parent) (hne : dists ≠ []) :
    s ∈ dists.map Prod.fst := by
  have hlen : 0 < dists.length := List.length_pos.mpr hne
  by_cases h0 : (dists.get ⟨0, hlen⟩).1 = s
  · rw [← h0]
    exact List.mem_map_of_mem Prod.fst (List.get_mem dists 0 hlen)
  · obtain ⟨j, hj, hj0, _⟩ := hInv.settledParent 0 hlen h0
    omega

theorem lcp_cover {G : Digraph V} {cost : V × V → ℚ}
    (hc : ∀ e ∈ edges G, 0 ≤ cost e) {s : V}
    {todo dists : List (V × ℚ)} {parent : List (V × V)}
    (hInv : LcpInv G cost s todo dists parent) :
    ∀ (P : List V) (t : V), ValidFromTo G s t P → t ∉ dists.map Prod.fst →
      ∃ w cw, alookup todo w = some cw ∧ cw ≤ walkCost cost P := by
  intro P
  induction P using List.reverseRecOn with
  | nil =>
    intro t hP _
    exact absurd rfl hP.ne_nil
  | append_singleton Q x ih =>
    intro t hP ht
    obtain ⟨hx, hbase, hdec⟩ := valid_concat_decomp hP
    cases hQ : Q.getLast? with
    | none =>
      have hQnil : Q = [] := by
        cases Q with
        | nil => rfl
        | cons a q => rw [List.getLast?_eq_getLast] at hQ; cases hQ; simp
      have hts : t = s := hbase hQnil
      have hdists : dists = [] := by
        by_contra hne
        exact ht (hts ▸ hInv.start_settled hne)
      obtain ⟨htodo, _⟩ := hInv.startState hdists
      refine ⟨s, 0, by simp [htodo, alookup], ?_⟩
      subst hQnil
      have hwc : walkCost cost [x] = 0 := by simp [walkCost]
      rw [List.nil_append, hwc]
    | some u =>
      obtain ⟨hQvalid, hQedge⟩ := hdec u hQ
      have hcost : walkCost cost (Q ++ [x]) = walkCost cost Q + cost (u, t) := by
        rw [walkCost_append_edge cost Q u x hQ, hx]
      by_cases hu : u ∈ dists.map Prod.fst
      · obtain ⟨p, hmem, hfst⟩ := List.mem_map.mp hu
        obtain ⟨cw, hw, hle⟩ := hInv.frontier p.1 p.2
          (by rw [Prod.mk.eta]; exact hmem) t (by rw [hfst]; exact hQedge) ht
        refine ⟨t, cw, hw, ?_⟩
        have hlb : p.2 ≤ walkCost cost Q :=
          (hInv.settledOpt p hmem).2 Q (by rw [hfst]; exact hQvalid)
        rw [hfst] at hle
        rw [hcost]
        linarith
      · obtain ⟨w, cw, hw, hle⟩ := ih u hQvalid hu
        refine ⟨w, cw, hw, ?_⟩
        have hcnn : 0 ≤ cost (u, t) := hc (u, t) hQedge.mem_edges
        rw [hcost]
        linarith

theorem lcp_pop_opt {G : Digraph V} {cost : V × V → ℚ}
    (hc : ∀ e ∈ edges G, 0 ≤ cost e) {s : V}
    {todo dists : List (V × ℚ)} {parent : List (V × V)}
    (hInv : LcpInv G cost s todo dists parent) {cur : V} {c : ℚ}
    (hmin : minSnd todo = some (cur, c)) : IsOptCost G cost s cur c := by
  obtain ⟨hmem, hminimal⟩ := minSnd_spec todo (cur, c) hmin
  have hlook : alookup todo cur = some c :=
    alookup_of_mem_nodup hmem hInv.todoNodup
  refine ⟨hInv.todoAttained cur c hlook, ?_⟩
  intro P hP
  have hkey : cur ∈ akeys todo :=
    alookup_isSome_iff.mp (by rw [hlook]; rfl)
  have hnv : cur ∉ dists.map Prod.fst := hInv.todoNotVis cur hkey
  obtain ⟨w, cw, hw, hle⟩ := lcp_cover hc hInv P cur hP hnv
  have hcle : c ≤ cw := hminimal (w, cw) (alookup_mem hw)
  linarith

theorem LcpInv_step {G : Digraph V} (hWF : WF G) {cost : V × V → ℚ}
    (hc : ∀ e ∈ edges G, 0 ≤ cost e) {s : V}
    {todo dists : List (V × ℚ)} {parent : List (V × V)}
    (hInv : LcpInv G cost s todo dists parent) {cur : V} {c : ℚ}
    (hmin : minSnd todo = some (cur, c)) {adjs : List V}
    (hadj : adj_to G cur = some adjs) :
    LcpInv G cost s
      (adjs.foldl (relax cost cur c (dists.map Prod.fst ++ [cur]))
        (eraseKey todo cur, parent)).1
      (dists ++ [(cur, c)])
      (adjs.foldl (relax cost cur c (dists.map Prod.fst ++ [cur]))
        (eraseKey todo cur, parent)).2 := by
  obtain ⟨hmemtodo, hminimal⟩ := minSnd_spec todo (cur, c) hmin
  have hlook : alookup todo cur = some c :=
    alookup_of_mem_nodup hmemtodo hInv.todoNodup
  have hkey : cur ∈ akeys todo := alookup_isSome_iff.mp (by rw [hlook]; rfl)
  have hcurV : cur ∈ vertices G := hInv.todoVerts cur hkey
  have hcurNV : cur ∉ dists.map Prod.fst := hInv.todoNotVis cur hkey
  have hOpt : IsOptCost G cost s cur c := lcp_pop_opt hc hInv hmin
  have hndadjs : adjs.Nodup := adj_to_nodup hWF hadj
  have hadjverts : ∀ w ∈ adjs, w ∈ vertices G := adj_to_subset hWF hadj
  have hedgecur : ∀ w ∈ adjs, Edge G cur w := fun w hw => ⟨adjs, hadj, hw⟩
  have hedge_iff : ∀ w, Edge G cur w → w ∈ adjs := by
    rintro w ⟨l, hl, hwl⟩
    rw [hadj] at hl
    injection hl with hl
    subst hl
    exact hwl
  have hcurm : cur ∈ dists.map Prod.fst ++ [cur] :=
    List.mem_append_right _ (by simp)
  set todo0 := eraseKey todo cur with htodo0
  set F := adjs.foldl (relax cost cur c (dists.map Prod.fst ++ [cur]))
    (todo0, parent) with hF
  have h0nd : (akeys todo0).Nodup := akeys_eraseKey_nodup todo cur hInv.todoNodup
  have h0cur : alookup todo0 cur = none := by
    rw [alookup_eq_none_iff]
    intro hmem
    exact ((mem_akeys_eraseKey todo cur hInv.todoNodup cur).mp hmem).2 rfl
  have h0ne : ∀ w, w ≠ cur → alookup todo0 w = alookup todo w :=
    fun w hw => alookup_eraseKey_of_nodup todo cur hInv.todoNodup hw
  have hUn : ∀ w, (w ∉ adjs ∨ w ∈ dists.map Prod.fst ++ [cur]) →
      alookup F.1 w = alookup todo0 w ∧ alookup F.2 w = alookup parent w :=
    fun w hw => relax_fold_not_mem cost cur c _ adjs _ w hw
  have hMem : ∀ w, w ∈ adjs → w ∉ dists.map Prod.fst ++ [cur] →
      alookup F.1 w = (match alookup todo0 w with
        | none => some (c + cost (cur, w))
        | some dw => some (min dw (c + cost (cur, w)))) ∧
      alookup F.2 w = (if alookup todo0 w = none ∨
          (∃ dw, alookup todo0 w = some dw ∧ c + cost (cur, w) < dw)
        then some cur else alookup parent w) :=
    fun w hw hwv => relax_fold_mem cost cur c _ adjs hndadjs _ w hw hwv
  refine ⟨?_, ?_, ?_, ?_, ?_, ?_, ?_, ?_, ?_, ?_, ?_⟩
  · -- visNodup
    rw [List.map_append, List.nodup_append]
    refine ⟨hInv.visNodup, by simp, ?_⟩
    intro a ha hb
    simp only [List.map_cons, List.map_nil, List.mem_singleton] at hb
    subst hb
    exact hcurNV ha
  · -- visVerts
    intro v hv
    rw [List.map_append] at hv
    rcases List.mem_append.mp hv with h | h
    · exact hInv.visVerts v h
    · simp only [List.map_cons, List.map_nil, List.mem_singleton] at h
      subst h
      exact hcurV
  · -- todoNodup
    exact relax_fold_keys_nodup cost cur c _ adjs _ h0nd
  · -- todoVerts
    intro v hvk
    have hsome : (alookup F.1 v).isSome = true := alookup_isSome_iff.mpr hvk
    by_cases hva : v ∈ adjs
    · exact hadjverts v hva
    · obtain ⟨hTeq, _⟩ := hUn v (Or.inl hva)
      rw [hTeq] at hsome
      have hk0 : v ∈ akeys todo0 := alookup_isSome_iff.mp hsome
      exact hInv.todoVerts v (akeys_eraseKey_subset todo cur v hk0)
  · -- todoNotVis
    intro v hvk hvmem
    have hvmem' : v ∈ dists.map Prod.fst ++ [cur] := by
      rw [List.map_append] at hvmem
      simpa using hvmem
    have hsome : (alookup F.1 v).isSome = true := alookup_isSome_iff.mpr hvk
    obtain ⟨hTeq, _⟩ := hUn v (Or.inr hvmem')
    rw [hTeq] at hsome
    by_cases hvc : v = cur
    · subst hvc
      rw [h0cur] at hsome
      simp at hsome
    · rw [h0ne v hvc] at hsome
      have hk : v ∈ akeys todo := alookup_isSome_iff.mp hsome
      rcases List.mem_append.mp hvmem' with h | h
      · exact hInv.todoNotVis v hk h
      · rw [List.mem_singleton] at h
        exact hvc h
  · -- settledOpt
    intro vc hm
    rcases List.mem_append.mp hm with h | h
    · exact hInv.settledOpt vc h
    · rw [List.mem_singleton] at h
      subst h
      exact hOpt
  · -- settledParent
    intro i hi hne
    by_cases hilt : i < dists.length
    · have hgi : (dists ++ [(cur, c)]).get ⟨i, hi⟩ = dists.get ⟨i, hilt⟩ :=
        get_append_left_aux _ _ i hilt hi
      rw [hgi] at hne ⊢
      obtain ⟨j, hj, hji, hpl, hedge, hceq⟩ := hInv.settledParent i hilt hne
      have hjlt : j < (dists ++ [(cur, c)]).length := by
        simp only [List.length_append, List.length_cons, List.length_nil]
        omega
      have hgj : (dists ++ [(cur, c)]).get ⟨j, hjlt⟩ = dists.get ⟨j, hj⟩ :=
        get_append_left_aux _ _ j hj hjlt
      refine ⟨j, hjlt, hji, ?_, ?_, ?_⟩
      · rw [hgj]
        have hkeyvis : (dists.get ⟨i, hilt⟩).1 ∈ dists.map Prod.fst ++ [cur] :=
          List.mem_append_left _
            (List.mem_map_of_mem Prod.fst (List.get_mem dists i hilt))
        obtain ⟨_, hPeq⟩ := hUn _ (Or.inr hkeyvis)
        rw [hPeq]
        exact hpl
      · rw [hgj]
        exact hedge
      · rw [hgj]
        exact hceq
    · have hieq : i = dists.length := by
        have hi' : i < dists.length + 1 := by
          simpa using hi
        omega
      subst hieq
      have hgi := get_concat_self dists (cur, c) hi
      rw [hgi] at hne ⊢
      obtain ⟨u, cu, humem, hplook, hedge, hceq⟩ := hInv.todoParent cur c hlook hne
      obtain ⟨⟨j, hj⟩, hgetj⟩ := List.mem_iff_get.mp humem
      have hjlt : j < (dists ++ [(cur, c)]).length := by
        simp only [List.length_append, List.length_cons, List.length_nil]
        omega
      have hgj : (dists ++ [(cur, c)]).get ⟨j, hjlt⟩ = (u, cu) := by
        rw [get_append_left_aux _ _ j hj hjlt, hgetj]
      refine ⟨j, hjlt, hj, ?_, ?_, ?_⟩
      · rw [hgj]
        obtain ⟨_, hPeq⟩ := hUn cur (Or.inr hcurm)
        rw [hPeq]
        exact hplook
      · rw [hgj]
        exact hedge
      · rw [hgj]
        exact hceq
  · -- todoAttained
    intro v cv hv
    by_cases hvv : v ∈ dists.map Prod.fst ++ [cur]
    · obtain ⟨hTeq, _⟩ := hUn v (Or.inr hvv)
      rw [hTeq] at hv
      by_cases hvc : v = cur
      · subst hvc
        rw [h0cur] at hv
        cases hv
      · rw [h0ne v hvc] at hv
        exact hInv.todoAttained v cv hv
    · have hvc : v ≠ cur := fun h => hvv (h ▸ hcurm)
      by_cases hva : v ∈ adjs
      · obtain ⟨hTeq, _⟩ := hMem v hva hvv
        cases hl : alookup todo v with
        | none =>
          have hveq : alookup F.1 v = some (c + cost (cur, v)) := by
            rw [hTeq, h0ne v hvc, hl]
          rw [hveq] at hv
          injection hv with hv
          obtain ⟨p, hp, hpc⟩ := hOpt.1
          refine ⟨p ++ [v], valid_append_edge hp (hedgecur v hva), ?_⟩
          rw [walkCost_append_edge cost p cur v hp.2.2, hpc, hv]
        | some dv =>
          have hveq : alookup F.1 v = some (min dv (c + cost (cur, v))) := by
            rw [hTeq, h0ne v hvc, hl]
          rw [hveq] at hv
          injection hv with hv
          rcases le_total dv (c + cost (cur, v)) with hmle | hmle
          · rw [min_eq_left hmle] at hv
            obtain ⟨p, hp, hpc⟩ := hInv.todoAttained v dv hl
            exact ⟨p, hp, by rw [hpc, hv]⟩
          · rw [min_eq_right hmle] at hv
            obtain ⟨p, hp, hpc⟩ := hOpt.1
            refine ⟨p ++ [v], valid_append_edge hp (hedgecur v hva), ?_⟩
            rw [walkCost_append_edge cost p cur v hp.2.2, hpc, hv]
      · obtain ⟨hTeq, _⟩ := hUn v (Or.inl hva)
        rw [hTeq] at hv
        rw [h0ne v hvc] at hv
        exact hInv.todoAttained v cv hv
  · -- todoParent
    intro v cv hv hvs
    by_cases hvv : v ∈ dists.map Prod.fst ++ [cur]
    · obtain ⟨hTeq, hPeq⟩ := hUn v (Or.inr hvv)
      rw [hTeq] at hv
      by_cases hvc : v = cur
      · subst hvc
        rw [h0cur] at hv
        cases hv
      · rw [h0ne v hvc] at hv
        obtain ⟨u, cu, hm, hpl, he, hceq⟩ := hInv.todoParent v cv hv hvs
        exact ⟨u, cu, List.mem_append_left _ hm, by rw [hPeq]; exact hpl, he, hceq⟩
    · have hvc : v ≠ cur := fun h => hvv (h ▸ hcurm)
      by_cases hva : v ∈ adjs
      · obtain ⟨hTeq, hPeq⟩ := hMem v hva hvv
        cases hl : alookup todo v with
        | none =>
          have hl0 : alookup todo0 v = none := by rw [h0ne v hvc, hl]
          have hveq : alookup F.1 v = some (c + cost (cur, v)) := by
            rw [hTeq, hl0]
          have hPcur : alookup F.2 v = some cur := by
            rw [hPeq, if_pos (Or.inl hl0)]
          rw [hveq] at hv
          injection hv with hv
          exact ⟨cur, c, List.mem_append_right _ (by simp), hPcur,
            hedgecur v hva, hv.symm⟩
        | some dv =>
          have hl0 : alookup todo0 v = some dv := by rw [h0ne v hvc, hl]
          have hveq : alookup F.1 v = some (min dv (c + cost (cur, v))) := by
            rw [hTeq, hl0]
          rw [hveq] at hv
          injection hv with hv
          by_cases hlt : c + cost (cur, v) < dv
          · have hPcur : alookup F.2 v = some cur := by
              rw [hPeq, if_pos (Or.inr ⟨dv, hl0, hlt⟩)]
            rw [min_eq_right (le_of_lt hlt)] at hv
            exact ⟨cur, c, List.mem_append_right _ (by simp), hPcur,
              hedgecur v hva, hv.symm⟩
          · have hcondF : ¬(alookup todo0 v = none ∨
                (∃ dw, alookup todo0 v = some dw ∧ c + cost (cur, v) < dw)) := by
              push_neg
              refine ⟨by rw [hl0]; simp, ?_⟩
              intro dn hdn
              rw [hl0] at hdn
              injection hdn with hdn
              subst hdn
              exact le_of_not_lt hlt
            have hPold : alookup F.2 v = alookup parent v := by
              rw [hPeq, if_neg hcondF]
            rw [min_eq_left (le_of_not_lt hlt)] at hv
            obtain ⟨u, cu, hm, hpl, he, hceq⟩ := hInv.todoParent v dv hl hvs
            exact ⟨u, cu, List.mem_append_left _ hm,
              by rw [hPold]; exact hpl, he, by rw [← hv]; exact hceq⟩
      · obtain ⟨hTeq, hPeq⟩ := hUn v (Or.inl hva)
        rw [hTeq] at hv
        rw [h0ne v hvc] at hv
        obtain ⟨u, cu, hm, hpl, he, hceq⟩ := hInv.todoParent v cv hv hvs
        exact ⟨u, cu, List.mem_append_left _ hm, by rw [hPeq]; exact hpl, he, hceq⟩
  · -- frontier
    intro u cu hm w he hwns
    have hwn1 : w ∉ dists.map Prod.fst := by
      intro h
      exact hwns (by rw [List.map_append]; exact List.mem_append_left _ h)
    have hwc : w ≠ cur := by
      intro h
      subst h
      exact hwns (by rw [List.map_append]; exact List.mem_append_right _ (by simp))
    have hwnv : w ∉ dists.map Prod.fst ++ [cur] := by
      intro h
      rcases List.mem_append.mp h with h | h
      · exact hwn1 h
      · rw [List.mem_singleton] at h
        exact hwc h
    rcases List.mem_append.mp hm with hm | hm
    · obtain ⟨cw, hlw, hle⟩ := hInv.frontier u cu hm w he hwn1
      have hl0 : alookup todo0 w = some cw := by rw [h0ne w hwc, hlw]
      by_cases hwa : w ∈ adjs
      · obtain ⟨hTeq, _⟩ := hMem w hwa hwnv
        have hveq : alookup F.1 w = some (min cw (c + cost (cur, w))) := by
          rw [hTeq, hl0]
        exact ⟨_, hveq, le_trans (min_le_left _ _) hle⟩
      · obtain ⟨hTeq, _⟩ := hUn w (Or.inl hwa)
        exact ⟨cw, by rw [hTeq, hl0], hle⟩
    · rw [List.mem_singleton] at hm
      injection hm with hm1 hm2
      rw [hm1, hm2]
      have hwa : w ∈ adjs := hedge_iff w (by rw [← hm1]; exact he)
      obtain ⟨hTeq, _⟩ := hMem w hwa hwnv
      cases hl : alookup todo0 w with
      | none =>
        have hveq : alookup F.1 w = some (c + cost (cur, w)) := by
          rw [hTeq, hl]
        exact ⟨_, hveq, le_refl _⟩
      | some dw =>
        have hveq : alookup F.1 w = some (min dw (c + cost (cur, w))) := by
          rw [hTeq, hl]
        exact ⟨_, hveq, min_le_right _ _⟩
  · -- startState
    intro h
    exact absurd h (by simp)

theorem LcpInv_init (G : Digraph V) (cost : V × V → ℚ) (s : V)
    (hs : s ∈ vertices G) : LcpInv G cost s [(s, 0)] [] [] := by
  refine ⟨by simp, by simp, by simp [akeys], ?_, by simp, by simp, ?_, ?_, ?_,
    by simp, fun _ => ⟨rfl, rfl⟩⟩
  · intro v hv
    simp [akeys] at hv
    subst hv
    exact hs
  · intro i hi
    simp at hi
  · intro v c hv
    by_cases hvs : v = s
    · subst hvs
      rw [show alookup [(v, (0 : ℚ))] v = some 0 from by simp [alookup]] at hv
      injection hv with hv
      exact ⟨[v], ValidFromTo.single,
        by rw [show walkCost cost [v] = 0 from by simp [walkCost], hv]⟩
    · simp [alookup, hvs] at hv
  · intro v c hv hvs
    by_cases h : v = s
    · exact absurd h hvs
    · simp [alookup, h] at hv

theorem lcp_loop_main (G : Digraph V) (hWF : WF G) (cost : V × V → ℚ)
    (hc : ∀ e ∈ edges G, 0 ≤ cost e) (s dest : V) :
    ∀ (fuel : Nat) (todo dists : List (V × ℚ)) (parent : List (V × V)),
      LcpInv G cost s todo dists parent →
      (vertices G).length + 1 ≤ fuel + dists.length →
      ∃ todoF distsF parentF,
        lcp_loop G cost dest fuel todo (dists.map Prod.fst) parent =
          some (.ok (distsF.map Prod.fst, parentF)) ∧
        LcpInv G cost s todoF distsF parentF ∧
        (todoF = [] ∨ dest ∈ distsF.map Prod.fst) := by
  intro fuel
  induction fuel with
  | zero =>
    intro todo dists parent hInv hf
    exfalso
    have hle : dists.length ≤ (vertices G).length := by
      have := (hInv.visNodup.subperm hInv.visVerts).length_le
      simpa using this
    omega
  | succ fuel ih =>
    intro todo dists parent hInv hf
    by_cases hguard : todo = [] ∨ dest ∈ dists.map Prod.fst
    · refine ⟨todo, dists, parent, ?_, hInv, hguard⟩
      rw [lcp_loop, if_pos hguard]
    · have htne : todo ≠ [] := fun h => hguard (Or.inl h)
      cases hmin : minSnd todo with
      | none =>
        exfalso
        have hsome := minSnd_isSome todo htne
        rw [hmin] at hsome
        simp at hsome
      | some cc =>
        obtain ⟨cur, c⟩ := cc
        have hlook : alookup todo cur = some c :=
          alookup_of_mem_nodup (minSnd_spec todo (cur, c) hmin).1 hInv.todoNodup
        have hcurV : cur ∈ vertices G :=
          hInv.todoVerts cur (alookup_isSome_iff.mp (by rw [hlook]; rfl))
        obtain ⟨adjs, hadj⟩ := adj_to_of_mem_vertices hcurV
        have hstep := LcpInv_step hWF hc hInv hmin hadj
        obtain ⟨todoF, distsF, parentF, heq, hInvF, hexit⟩ :=
          ih _ (dists ++ [(cur, c)]) _ hstep (by simp; omega)
        refine ⟨todoF, distsF, parentF, ?_, hInvF, hexit⟩
        rw [lcp_loop, if_neg hguard]
        simp only [hmin, hadj]
        simp only [List.map_append, List.map_cons, List.map_nil] at heq
        exact heq

theorem reconstruct_spec {G : Digraph V} {cost : V × V → ℚ}
    (hc : ∀ e ∈ edges G, 0 ≤ cost e) {s : V}
    {todoF distsF : List (V × ℚ)} {parentF : List (V × V)}
    (hInv : LcpInv G cost s todoF distsF parentF) :
    ∀ (n : ℕ) (i : ℕ) (hi : i < distsF.length), i < n →
      (distsF.get ⟨i, hi⟩).1 ≠ s →
      ∀ (fuel : ℕ), i < fuel → ∀ (acc : List V),
        ∃ tail, reconstruct parentF s fuel (distsF.get ⟨i, hi⟩).1 acc =
            some (acc ++ tail) ∧
          ValidFromTo G s (distsF.get ⟨i, hi⟩).1
            ((distsF.get ⟨i, hi⟩).1 :: tail).reverse ∧
          walkCost cost (((distsF.get ⟨i, hi⟩).1 :: tail).reverse) =
            (distsF.get ⟨i, hi⟩).2 := by
  intro n
  induction n with
  | zero =>
    intro i hi h
    omega
  | succ n ih =>
    intro i hi hin hne fuel hfuel acc
    obtain ⟨j, hj, hji, hpl, hedge, hceq⟩ := hInv.settledParent i hi hne
    cases fuel with
    | zero => omega
    | succ f =>
      by_cases hjs : (distsF.get ⟨j, hj⟩).1 = s
      · refine ⟨[s], ?_, ?_, ?_⟩
        · simp only [reconstruct, hpl]
          rw [if_pos hjs]
        · rw [hjs] at hedge
          show ValidFromTo G s (distsF.get ⟨i, hi⟩).1 [s, (distsF.get ⟨i, hi⟩).1]
          exact ⟨List.chain'_pair.mpr hedge, by simp, by simp⟩
        · have hopt := hInv.settledOpt (distsF.get ⟨j, hj⟩) (List.get_mem _ _ _)
          rw [hjs] at hopt
          have h0 : (distsF.get ⟨j, hj⟩).2 = 0 := IsOptCost.start_eq_zero hc hopt
          show walkCost cost [s, (distsF.get ⟨i, hi⟩).1] = (distsF.get ⟨i, hi⟩).2
          rw [hceq, hjs, h0]
          simp [walkCost]
      · have hjn : j < n := by omega
        have hjf : j < f := by omega
        obtain ⟨tail', heq', hvalid', hcost'⟩ :=
          ih j hj hjn hjs f hjf (acc ++ [(distsF.get ⟨j, hj⟩).1])
        have hrev : ((distsF.get ⟨i, hi⟩).1 ::
              (distsF.get ⟨j, hj⟩).1 :: tail').reverse =
            ((distsF.get ⟨j, hj⟩).1 :: tail').reverse ++
              [(distsF.get ⟨i, hi⟩).1] := by
          rw [List.reverse_cons]
        refine ⟨(distsF.get ⟨j, hj⟩).1 :: tail', ?_, ?_, ?_⟩
        · simp only [reconstruct, hpl]
          rw [if_neg hjs, heq']
          rw [List.append_assoc]
          rfl
        · rw [hrev]
          exact valid_append_edge hvalid' hedge
        · rw [hrev, walkCost_append_edge cost _ _ _ hvalid'.2.2, hcost', hceq]

/-- C1: for every well-formed digraph, every cost function that is
non-negative on the graph's edges, and member vertices `source` and
`dest`: when some path from `source` to `dest` exists,
`least_cost_path` returns (without error) a valid path from `source`
to `dest` whose total cost is a lower bound of the total cost of every
such path; when no path exists it returns the empty no-path result. -/
theorem c1_least_cost_path_correct (G : Digraph V) (hWF : WF G)
    (cost : V × V → ℚ) (hc : ∀ e ∈ edges G, 0 ≤ cost e) (source dest : V)
    (hs : source ∈ vertices G) (hd : dest ∈ vertices G) :
    ((∃ P, ValidFromTo G source dest P) →
      ∃ p, least_cost_path G cost source dest = some (.ok p) ∧
        ValidFromTo G source dest p ∧
        ∀ P, ValidFromTo G source dest P →
          walkCost cost p ≤ walkCost cost P) ∧
    ((¬ ∃ P, ValidFromTo G source dest P) →
      least_cost_path G cost source dest = some (.ok [])) := by
  have hnv : (vertices G).length = num_vertices G := by
    simp [vertices, akeys, num_vertices]
  have hInv0 := LcpInv_init G cost source hs
  obtain ⟨todoF, distsF, parentF, hloop, hInvF, hexit⟩ :=
    lcp_loop_main G hWF cost hc source dest (num_vertices G + 2)
      [(source, 0)] [] [] hInv0 (by rw [List.length_nil, hnv]; omega)
  rw [List.map_nil] at hloop
  have hguard1 : ¬(source = dest ∧ source ∉ vertices G) := fun h => h.2 hs
  constructor
  · rintro ⟨P0, hP0⟩
    have hdset : dest ∈ distsF.map Prod.fst := by
      rcases hexit with h | h
      · by_contra hnd
        obtain ⟨w, cw, hw, _⟩ := lcp_cover hc hInvF P0 dest hP0 hnd
        rw [h] at hw
        simp [alookup] at hw
      · exact h
    obtain ⟨pd, hpdmem, hpdfst⟩ := List.mem_map.mp hdset
    have hdopt : IsOptCost G cost source pd.1 pd.2 := hInvF.settledOpt pd hpdmem
    by_cases hsd : source = dest
    · refine ⟨[source], ?_, ?_, ?_⟩
      · simp only [least_cost_path]
        rw [if_neg hguard1]
        simp only [hloop]
        rw [if_pos ⟨hsd, hs⟩]
      · rw [← hsd]
        exact ValidFromTo.single
      · intro P hP
        have h0 : walkCost cost [source] = 0 := by simp [walkCost]
        rw [h0]
        exact walkCost_nonneg G cost hc P hP.1
    · have hdns : dest ≠ source := fun h => hsd h.symm
      obtain ⟨⟨i, hi⟩, hgeti⟩ := List.mem_iff_get.mp hpdmem
      have hgfst : (distsF.get ⟨i, hi⟩).1 = dest := by rw [hgeti, hpdfst]
      have hne : (distsF.get ⟨i, hi⟩).1 ≠ source := by rw [hgfst]; exact hdns
      have hilen : i < num_vertices G + 2 := by
        have hlen : distsF.length ≤ (vertices G).length := by
          simpa using (hInvF.visNodup.subperm hInvF.visVerts).length_le
        omega
      obtain ⟨tail, hrec, hvalid, hcost⟩ :=
        reconstruct_spec hc hInvF (i + 1) i hi (by omega) hne
          (num_vertices G + 2) hilen [dest]
      rw [hgfst] at hrec hvalid
      refine ⟨(dest :: tail).reverse, ?_, hvalid, ?_⟩
      · simp only [least_cost_path]
        rw [if_neg hguard1]
        simp only [hloop]
        rw [if_neg (fun hcon => hsd hcon.1), if_pos hdset]
        simp only [hrec]
        rfl
      · intro P hP
        have hc2 : walkCost cost ((dest :: tail).reverse) =
            (distsF.get ⟨i, hi⟩).2 := by
          rw [← hgfst]
          exact hcost
        rw [hc2, hgeti]
        exact hdopt.2 P (by rw [hpdfst]; exact hP)
  · intro hnp
    have hsd : source ≠ dest := by
      intro h
      subst h
      exact hnp ⟨[source], ValidFromTo.single⟩
    have hdns : dest ∉ distsF.map Prod.fst := by
      intro hmem
      obtain ⟨pd, hpdmem, hpdfst⟩ := List.mem_map.mp hmem
      obtain ⟨p, hp, _⟩ := (hInvF.settledOpt pd hpdmem).1
      exact hnp ⟨p, by rw [← hpdfst]; exact hp⟩
    simp only [least_cost_path]
    rw [if_neg hguard1]
    simp only [hloop]
    rw [if_neg (fun hcon => hsd hcon.1), if_neg hdns]

theorem c1_witness :
    ∃ p, least_cost_path
        (ofEdges [(1, 2), (2, 3), (3, 1), (4, 3), (3, 5), (5, 4)] : Digraph ℕ)
        (fun _ => (1 : ℚ)) 1 5 = some (.ok p) ∧
      ValidFromTo (ofEdges [(1, 2), (2, 3), (3, 1), (4, 3), (3, 5), (5, 4)])
        1 5 p ∧
      ∀ P, ValidFromTo (ofEdges [(1, 2), (2, 3), (3, 1), (4, 3), (3, 5), (5, 4)])
          1 5 P →
        walkCost (fun _ => (1 : ℚ)) p ≤ walkCost (fun _ => (1 : ℚ)) P :=
  (c1_least_cost_path_correct
    (ofEdges [(1, 2), (2, 3), (3, 1), (4, 3), (3, 5), (5, 4)]) (by decide)
    (fun _ => (1 : ℚ)) (by intro e he; norm_num) 1 5 (by decide) (by decide)).1
    ⟨[1, 2, 3, 5], by decide⟩

/-- C3 (amended): calling `least_cost_path` with a source that is not a
vertex of the graph and differs from the destination raises a
`KeyError` (modelled as `.error ()`): the source is popped from the
frontier on the first iteration and `adj_to` is called on it. -/
theorem c3_lcp_nonmember_source (G : Digraph V) (cost : V × V → ℚ) (s d : V)
    (hs : s ∉ vertices G) (hsd : s ≠ d) :
    least_cost_path G cost s d = some (.error ()) := by
  have hadj : adj_to G s = none := by
    rw [adj_to, alookup_eq_none_iff]
    exact fun h => hs (by simpa [vertices] using h)
  have hguard : ¬([(s, (0 : ℚ))] = [] ∨ d ∈ ([] : List V)) := by simp
  have hloop : lcp_loop G cost d (num_vertices G + 2) [(s, 0)] [] [] =
      some (.error ()) := by
    show lcp_loop G cost d (num_vertices G + 1 + 1) [(s, 0)] [] [] = _
    rw [lcp_loop, if_neg hguard]
    have hm : minSnd [(s, (0 : ℚ))] = some (s, 0) := rfl
    simp only [hm, hadj]
  simp only [least_cost_path]
  rw [if_neg (fun h => hsd h.1)]
  simp only [hloop]

theorem c3_counterexample :
    (3 : ℕ) ∉ vertices (ofEdges [(1, 2)] : Digraph ℕ) ∧ (3 : ℕ) ≠ 2 ∧
    least_cost_path (ofEdges [(1, 2)] : Digraph ℕ) (fun _ => (1 : ℚ)) 3 2 =
      some (.error ()) :=
  ⟨by decide, by decide, rfl⟩

theorem c3_witness :
    least_cost_path (ofEdges [(5, 6)] : Digraph ℕ) (fun _ => (2 : ℚ)) 9 6 =
      some (.error ()) :=
  c3_lcp_nonmember_source (ofEdges [(5, 6)]) (fun _ => (2 : ℚ)) 9 6
    (by decide) (by decide)

theorem relax_congr (cost₁ cost₂ : V × V → ℚ) (cur : V) (c : ℚ)
    (visited : List V) (tp : List (V × ℚ) × List (V × V)) (n : V)
    (h : cost₁ (cur, n) = cost₂ (cur, n)) :
    relax cost₁ cur c visited tp n = relax cost₂ cur c visited tp n := by
  simp only [relax, h]

theorem relax_foldl_congr (cost₁ cost₂ : V × V → ℚ) (cur : V) (c : ℚ)
    (visited : List V) :
    ∀ (adjs : List V) (tp : List (V × ℚ) × List (V × V)),
      (∀ n ∈ adjs, cost₁ (cur, n) = cost₂ (cur, n)) →
      adjs.foldl (relax cost₁ cur c visited) tp =
        adjs.foldl (relax cost₂ cur c visited) tp := by
  intro adjs
  induction adjs with
  | nil => intro tp _; rfl
  | cons a as ih =>
    intro tp h
    rw [List.foldl_cons, List.foldl_cons,
      relax_congr cost₁ cost₂ cur c visited tp a (h a (by simp))]
    exact ih _ (fun n hn => h n (List.mem_cons_of_mem _ hn))

theorem lcp_loop_congr (G : Digraph V) (cost₁ cost₂ : V × V → ℚ)
    (h : ∀ e ∈ edges G, cost₁ e = cost₂ e) (dest : V) :
    ∀ (fuel : ℕ) (todo : List (V × ℚ)) (visited : List V)
      (parent : List (V × V)),
      lcp_loop G cost₁ dest fuel todo visited parent =
        lcp_loop G cost₂ dest fuel todo visited parent := by
  intro fuel
  induction fuel with
  | zero => intro todo visited parent; rfl
  | succ fuel ih =>
    intro todo visited parent
    by_cases hguard : todo = [] ∨ dest ∈ visited
    · rw [lcp_loop, lcp_loop, if_pos hguard, if_pos hguard]
    · cases hmin : minSnd todo with
      | none =>
        rw [lcp_loop, lcp_loop, if_neg hguard, if_neg hguard]
        simp only [hmin]
      | some cc =>
        obtain ⟨cur, c⟩ := cc
        cases hadj : adj_to G cur with
        | none =>
          rw [lcp_loop, lcp_loop, if_neg hguard, if_neg hguard]
          simp only [hmin, hadj]
        | some adjs =>
          have hfold := relax_foldl_congr cost₁ cost₂ cur c (visited ++ [cur])
            adjs (eraseKey todo cur, parent)
            (fun n hn => h (cur, n) (Edge.mem_edges ⟨adjs, hadj, hn⟩))
          rw [lcp_loop, lcp_loop, if_neg hguard, if_neg hguard]
          simp only [hmin, hadj]
          rw [hfold]
          exact ih _ _ _

/-- C10: `least_cost_path` applies its cost function only to registered
edges of the graph: two cost functions that agree on every edge of `G`
produce identical results for every pair of endpoints, so a cost
function defined only on the graph's edges is never applied outside
its domain. -/
theorem c10_cost_only_on_edges (G : Digraph V) (cost₁ cost₂ : V × V → ℚ)
    (h : ∀ e ∈ edges G, cost₁ e = cost₂ e) (start dest : V) :
    least_cost_path G cost₁ start dest =
      least_cost_path G cost₂ start dest := by
  simp only [least_cost_path]
  rw [lcp_loop_congr G cost₁ cost₂ h dest (num_vertices G + 2)
    [(start, 0)] [] []]

theorem c10_witness :
    least_cost_path (ofEdges [(1, 2)] : Digraph ℕ) (fun _ => (1 : ℚ)) 1 2 =
      least_cost_path (ofEdges [(1, 2)])
        (fun e => if e = (1, 2) then (1 : ℚ) else 37) 1 2 :=
  c10_cost_only_on_edges (ofEdges [(1, 2)]) (fun _ => (1 : ℚ))
    (fun e => if e = (1, 2) then (1 : ℚ) else 37) (by decide) 1 2

/-- The `ValueError` message of `random_graph`, built exactly as the
source's format string does. -/
def errMsg (n m : ℕ) : String :=
  "For " ++ toString n ++ " vertices, you wanted " ++ toString m ++
    " edges, but can only have a maximum of " ++ toString (n * (n - 1))

/-- The edge-insertion loop of `random_graph`: `samples` is the stream
of pairs produced by `random.sample(range(n), 2)`, `fuel` bounds the
number of iterations and `none` records a run that has not terminated
within `fuel` iterations. -/
def random_graph_loop (m : ℕ) : (ℕ → ℕ × ℕ) → ℕ → Digraph ℕ →
    Option (Digraph ℕ)
  | _, 0, G => if num_edges G < m then none else some G
  | samples, fuel + 1, G =>
    if num_edges G < m then
      random_graph_loop m (fun i => samples (i + 1)) fuel
        (add_edge G (samples 0))
    else some G

/-- `random_graph(n, m)`: add vertices `0 .. n-1`, raise `ValueError`
when `m > n*(n-1)`, otherwise repeatedly add sampled edges until there
are `m` of them. -/
def random_graph (n m : ℕ) (samples : ℕ → ℕ × ℕ) (fuel : ℕ) :
    Except String (Option (Digraph ℕ)) :=
  let G := (List.range n).foldl add_vertex (Digraph.empty ℕ)
  if m > n * (n - 1) then .error (errMsg n m)
  else .ok (random_graph_loop m samples fuel G)

theorem add_vertex_mem_eq {G : Digraph V} {v : V} (h : v ∈ vertices G) :
    add_vertex G v = G := by
  unfold add_vertex
  rw [if_pos (show v ∈ akeys G.tosets from h)]

theorem vertices_add_vertex_not_mem {G : Digraph V} {v : V}
    (h : v ∉ vertices G) : vertices (add_vertex G v) = vertices G ++ [v] := by
  unfold add_vertex
  rw [if_neg (show v ∉ akeys G.tosets from h)]
  simp [vertices, akeys]

theorem vertices_foldl_add_vertex :
    ∀ (l : List V) (G : Digraph V), (∀ v ∈ l, v ∉ vertices G) → l.Nodup →
      vertices (l.foldl add_vertex G) = vertices G ++ l := by
  intro l
  induction l with
  | nil => intro G _ _; simp
  | cons v l ih =>
    intro G hdisj hnd
    rw [List.nodup_cons] at hnd
    rw [List.foldl_cons]
    have hv : v ∉ vertices G := hdisj v (by simp)
    have hstep := vertices_add_vertex_not_mem hv
    rw [ih (add_vertex G v) ?_ hnd.2, hstep, List.append_assoc]
    rfl
    intro w hw
    rw [hstep, List.mem_append, List.mem_singleton]
    rintro (h | h)
    · exact hdisj w (List.mem_cons_of_mem _ hw) h
    · subst h
      exact hnd.1 hw

theorem num_edges_add_vertex (G : Digraph V) (v : V) :
    num_edges (add_vertex G v) = num_edges G := by
  by_cases h : v ∈ akeys G.tosets <;> simp [add_vertex, h, num_edges]

theorem num_edges_foldl_add_vertex :
    ∀ (l : List V) (G : Digraph V),
      num_edges (l.foldl add_vertex G) = num_edges G := by
  intro l
  induction l with
  | nil => intro G; rfl
  | cons v l ih =>
    intro G
    rw [List.foldl_cons, ih, num_edges_add_vertex]

theorem GInv_foldl_add_vertex :
    ∀ (l : List V) (G : Digraph V), GInv G → GInv (l.foldl add_vertex G) := by
  intro l
  induction l with
  | nil => intro G h; exact h
  | cons v l ih =>
    intro G h
    exact ih _ (GInv_add_vertex G v h)

theorem tosets_snd_nil_foldl :
    ∀ (l : List V) (G : Digraph V), (∀ p ∈ G.tosets, p.2 = ([] : List V)) →
      ∀ p ∈ (l.foldl add_vertex G).tosets, p.2 = [] := by
  intro l
  induction l with
  | nil => intro G h; exact h
  | cons v l ih =>
    intro G h
    refine ih _ ?_
    intro p hp
    by_cases hv : v ∈ akeys G.tosets
    · simp only [add_vertex, if_pos hv] at hp
      exact h p hp
    · simp only [add_vertex, if_neg hv] at hp
      rcases List.mem_append.mp hp with hm | hm
      · exact h p hm
      · rw [List.mem_singleton] at hm
        rw [hm]

theorem num_edges_aupdate_setAdd_le :
    ∀ (m : List (V × List V)) (u v : V),
      ((aupdate (fun s => setAdd s v) m u).map (fun p => p.2.length)).sum ≤
        ((m.map (fun p => p.2.length)).sum) + 1 := by
  intro m
  induction m with
  | nil => intro u v; simp [aupdate]
  | cons p rest ih =>
    intro u v
    obtain ⟨k, x⟩ := p
    by_cases hu : u = k
    · subst hu
      have hrw : aupdate (fun s => setAdd s v) ((u, x) :: rest) u =
          (u, setAdd x v) :: rest := by
        simp [aupdate]
      rw [hrw]
      simp only [List.map_cons, List.sum_cons]
      have := setAdd_length_le x v
      omega
    · simp only [aupdate, if_neg hu, List.map_cons, List.sum_cons]
      have := ih u v
      omega

theorem num_edges_add_edge_le {G : Digraph V} {u v : V}
    (hu : u ∈ vertices G) (hv : v ∈ vertices G) :
    num_edges (add_edge G (u, v)) ≤ num_edges G + 1 := by
  unfold add_edge
  rw [add_vertex_mem_eq hu, add_vertex_mem_eq hv]
  exact num_edges_aupdate_setAdd_le G.tosets u v

theorem vertices_add_edge_mem {G : Digraph V} {u v : V}
    (hu : u ∈ vertices G) (hv : v ∈ vertices G) :
    vertices (add_edge G (u, v)) = vertices G := by
  unfold add_edge
  rw [add_vertex_mem_eq hu, add_vertex_mem_eq hv]
  exact akeys_aupdate _ _ _

theorem edge_add_edge_cases {G : Digraph V} {u v a b : V}
    (hu : u ∈ vertices G) (hv : v ∈ vertices G)
    (hE : Edge (add_edge G (u, v)) a b) :
    Edge G a b ∨ (a = u ∧ b = v) := by
  obtain ⟨l, hl, hb⟩ := hE
  rw [show adj_to (add_edge G (u, v)) a =
      alookup (aupdate (fun s => setAdd s v) G.tosets u) a from by
    unfold add_edge
    rw [add_vertex_mem_eq hu, add_vertex_mem_eq hv]
    rfl] at hl
  by_cases ha : a = u
  · subst ha
    rw [alookup_aupdate_self] at hl
    obtain ⟨l0, hl0⟩ := adj_to_of_mem_vertices hu
    rw [show alookup G.tosets a = some l0 from hl0] at hl
    injection hl with hl
    subst hl
    rcases mem_setAdd.mp hb with h | h
    · exact Or.inl ⟨l0, hl0, h⟩
    · exact Or.inr ⟨rfl, h⟩
  · rw [alookup_aupdate_ne _ _ _ _ ha] at hl
    exact Or.inl ⟨l, hl, hb⟩

theorem rg_loop_spec (m n : ℕ) :
    ∀ (fuel : ℕ) (samples : ℕ → ℕ × ℕ) (G : Digraph ℕ),
      (∀ i, (samples i).1 < n ∧ (samples i).2 < n ∧
        (samples i).1 ≠ (samples i).2) →
      GInv G → vertices G = List.range n → num_edges G ≤ m →
      (∀ a b, Edge G a b → a ≠ b) →
      ∀ G', random_graph_loop m samples fuel G = some G' →
        vertices G' = List.range n ∧ num_edges G' = m ∧
        ∀ a b, Edge G' a b → a ≠ b := by
  intro fuel
  induction fuel with
  | zero =>
    intro samples G hsamp hInv hverts hle hne G' hG'
    simp only [random_graph_loop] at hG'
    by_cases hlt : num_edges G < m
    · rw [if_pos hlt] at hG'
      cases hG'
    · rw [if_neg hlt] at hG'
      injection hG' with hG'
      subst hG'
      exact ⟨hverts, by omega, hne⟩
  | succ fuel ih =>
    intro samples G hsamp hInv hverts hle hne G' hG'
    simp only [random_graph_loop] at hG'
    by_cases hlt : num_edges G < m
    · rw [if_pos hlt] at hG'
      have h0 := hsamp 0
      have hu : (samples 0).1 ∈ vertices G := by
        rw [hverts]
        exact List.mem_range.mpr h0.1
      have hv : (samples 0).2 ∈ vertices G := by
        rw [hverts]
        exact List.mem_range.mpr h0.2.1
      refine ih (fun i => samples (i + 1)) (add_edge G (samples 0))
        (fun i => hsamp (i + 1)) (GInv_add_edge G (samples 0) hInv)
        ?_ ?_ ?_ G' hG'
      · have hveq : vertices (add_edge G (samples 0)) = vertices G :=
          vertices_add_edge_mem hu hv
        rw [hveq, hverts]
      · have hle2 : num_edges (add_edge G (samples 0)) ≤ num_edges G + 1 :=
          num_edges_add_edge_le hu hv
        omega
      · intro a b hab
        rcases edge_add_edge_cases hu hv hab with h | ⟨h1, h2⟩
        · exact hne a b h
        · rw [h1, h2]
          exact h0.2.2
    · rw [if_neg hlt] at hG'
      injection hG' with hG'
      subst hG'
      exact ⟨hverts, by omega, hne⟩

theorem rg_loop_exit (m : ℕ) (samples : ℕ → ℕ × ℕ) (fuel : ℕ)
    (G : Digraph ℕ) (h : ¬ num_edges G < m) :
    random_graph_loop m samples fuel G = some G := by
  cases fuel <;> simp [random_graph_loop, h]

/-- C8: for all natural `n` and `m`, `random_graph(n, m)` with
`m ≤ n*(n-1)` builds (when its sampling loop terminates) a graph with
exactly the vertices `0 .. n-1`, exactly `m` edges and no self-loops;
the sampling stream is required to produce in-range distinct pairs
only when `0 < m`, i.e. only when the loop samples at all (which in
the source implies `n ≥ 2`, where `random.sample(range(n), 2)`
guarantees exactly that; for `m = 0` the loop exits at once). With
`m > n*(n-1)` it raises `ValueError` before any sampling, with a
message reporting `n`, the requested `m`, and the computed maximum
`n*(n-1)`. -/
theorem c8_random_graph (n m : ℕ) (samples : ℕ → ℕ × ℕ) (fuel : ℕ) :
    (m ≤ n * (n - 1) →
      (0 < m → ∀ i, (samples i).1 < n ∧ (samples i).2 < n ∧
        (samples i).1 ≠ (samples i).2) →
      ∃ r, random_graph n m samples fuel = .ok r ∧
        ∀ G, r = some G →
          vertices G = List.range n ∧ num_vertices G = n ∧
          num_edges G = m ∧ ∀ a b, Edge G a b → a ≠ b) ∧
    (n * (n - 1) < m →
      random_graph n m samples fuel = .error (errMsg n m) ∧
      (∃ s t, errMsg n m = s ++ toString n ++ t) ∧
      (∃ s t, errMsg n m = s ++ toString m ++ t) ∧
      (∃ s t, errMsg n m = s ++ toString (n * (n - 1)) ++ t)) := by
  have hVinit : vertices ((List.range n).foldl add_vertex (Digraph.empty ℕ)) =
      List.range n := by
    have h := vertices_foldl_add_vertex (List.range n) (Digraph.empty ℕ)
      (by intro v hv; simp [vertices, Digraph.empty, akeys]) (List.nodup_range n)
    simpa [vertices, Digraph.empty, akeys] using h
  have hEinit : num_edges ((List.range n).foldl add_vertex (Digraph.empty ℕ)) =
      0 := by
    rw [num_edges_foldl_add_vertex]
    rfl
  have hGinv : GInv ((List.range n).foldl add_vertex (Digraph.empty ℕ)) :=
    GInv_foldl_add_vertex _ _ GInv_empty
  have hNE : ∀ a b,
      Edge ((List.range n).foldl add_vertex (Digraph.empty ℕ)) a b → a ≠ b := by
    intro a b hab
    obtain ⟨l, hl, hb⟩ := hab
    have hmem := alookup_mem hl
    have hnil := tosets_snd_nil_foldl (List.range n) (Digraph.empty ℕ)
      (by intro p hp; simp [Digraph.empty] at hp) (a, l) hmem
    exact absurd hb (by rw [show l = ([] : List ℕ) from hnil]; simp)
  have hNV : ∀ G : Digraph ℕ, vertices G = List.range n →
      num_vertices G = n := by
    intro G hv
    have hlen : num_vertices G = (vertices G).length := by
      simp [num_vertices, vertices, akeys]
    rw [hlen, hv, List.length_range]
  constructor
  · intro hm hsamples
    refine ⟨random_graph_loop m samples fuel
      ((List.range n).foldl add_vertex (Digraph.empty ℕ)), ?_, ?_⟩
    · simp only [random_graph]
      rw [if_neg (by omega)]
    · intro G hG
      by_cases hm0 : 0 < m
      · obtain ⟨hv, he, hne⟩ := rg_loop_spec m n fuel samples _
          (hsamples hm0) hGinv hVinit (by omega) hNE G hG
        exact ⟨hv, hNV G hv, he, hne⟩
      · have hmz : m = 0 := by omega
        rw [rg_loop_exit m samples fuel _ (by omega)] at hG
        injection hG with hG
        subst hG
        exact ⟨hVinit, hNV _ hVinit, by omega, hNE⟩
  · intro hm
    refine ⟨?_, ?_, ?_, ?_⟩
    · simp only [random_graph]
      rw [if_pos (by omega)]
    · exact ⟨"For ", " vertices, you wanted " ++ toString m ++
        " edges, but can only have a maximum of " ++ toString (n * (n - 1)),
        by simp [errMsg, String.append_assoc]⟩
    · exact ⟨"For " ++ toString n ++ " vertices, you wanted ",
        " edges, but can only have a maximum of " ++ toString (n * (n - 1)),
        by simp [errMsg, String.append_assoc]⟩
    · exact ⟨"For " ++ toString n ++ " vertices, you wanted " ++ toString m ++
        " edges, but can only have a maximum of ", "",
        by simp [errMsg, String.append_assoc]⟩

theorem c8_witness :
    (∃ r, random_graph 2 1 (fun _ => (0, 1)) 3 = Except.ok r ∧
      ∀ G, r = some G →
        vertices G = List.range 2 ∧ num_vertices G = 2 ∧
        num_edges G = 1 ∧ ∀ a b, Edge G a b → a ≠ b) ∧
    (∃ r, random_graph 1 0 (fun _ => (0, 0)) 3 = Except.ok r ∧
      ∀ G, r = some G →
        vertices G = List.range 1 ∧ num_vertices G = 1 ∧
        num_edges G = 0 ∧ ∀ a b, Edge G a b → a ≠ b) ∧
    random_graph 1 1 (fun _ => (0, 0)) 3 = Except.error (errMsg 1 1) :=
  ⟨(c8_random_graph 2 1 (fun _ => (0, 1)) 3).1 (by norm_num)
      (fun _ _ => by norm_num),
    (c8_random_graph 1 0 (fun _ => (0, 0)) 3).1 (by norm_num)
      (fun h => absurd h (by norm_num)),
    ((c8_random_graph 1 1 (fun _ => (0, 0)) 3).2 (by norm_num)).1⟩
